import Mathlib

/-!
Verification of the Gas Town formula pipeline (schema, cooker, molecule compiler).

The data types below are shallow embeddings of the Rust structs in
`src/v3/plugins/gastown-bridge/wasm/gastown-formula-wasm/src/lib.rs`.
Rust `HashMap<String, T>` is modelled as an association list,
`Option<T>` as `Option`, `u32` as `Nat` (with the explicit bound where the
claim depends on it), and fallible operations return `Except`.
The implementation files `parser.rs`, `cooker.rs` and `molecule.rs` are
declared by `lib.rs` but are not part of the visible sources; the
corresponding operations are modelled from the specification and are
marked as such in their doc comments.
-/

/-- Formula type enumeration (Rust enum `FormulaType`). -/
inductive FormulaType
  | convoy
  | workflow
  | expansion
  | aspect
deriving DecidableEq

/-- Workflow step definition (Rust struct `Step`). -/
structure Step where
  id : String
  title : String
  description : String
  needs : List String
  duration : Option Nat
  requires : List String
deriving DecidableEq

/-- Convoy leg definition (Rust struct `Leg`). -/
structure Leg where
  id : String
  title : String
  focus : String
  description : String
  agent : Option String
  order : Option Nat
deriving DecidableEq

/-- Variable definition (Rust struct `Var`); `enum_values` is the field
serialized as `enum`. -/
structure Var where
  name : String
  description : Option String
  default : Option String
  required : Bool
  pattern : Option String
  enum_values : Option (List String)
deriving DecidableEq

/-- Synthesis configuration (Rust struct `Synthesis`). -/
structure Synthesis where
  strategy : String
  format : Option String
  description : Option String
deriving DecidableEq

/-- Formula definition (Rust struct `Formula`); `name` is the field
serialized as `formula`, `formula_type` the field serialized as `type`. -/
structure Formula where
  name : String
  description : String
  formula_type : FormulaType
  version : Nat
  legs : List Leg
  synthesis : Option Synthesis
  steps : List Step
  vars : List (String × Var)
deriving DecidableEq

/-- Cooked formula with substituted variables (Rust struct `CookedFormula`). -/
structure CookedFormula where
  formula : Formula
  cooked_at : String
  cooked_vars : List (String × String)
  original_name : String
deriving DecidableEq

/-- Cooking errors (spec section 4.2). -/
inductive CookError
  | missingRequiredVar (name : String)
  | patternMismatch (name value pat : String)
  | invalidEnumValue (name value : String) (allowed : List String)
  | unknownVariableReference (name : String)
deriving DecidableEq

/-- Parse errors (spec section 4.1): a syntactic failure or a schema
violation carrying the offending field and a reason. -/
inductive ParseError
  | malformedInput
  | schemaError (field reason : String)
deriving DecidableEq

/-- Graph errors of the molecule compiler (spec section 4.3). -/
inductive GraphError
  | cycleDetected (ids : List String)
  | danglingReference (id : String)
deriving DecidableEq

deriving instance DecidableEq for Except

/-- Association-list lookup, modelling map access. -/
def lookupA : List (String × String) → String → Option String
  | [], _ => none
  | (k, v) :: rest, n => if k = n then some v else lookupA rest n

/-- The declared variables of a formula, in declaration order
(the values of the `vars` map). -/
def varList (f : Formula) : List Var := f.vars.map Prod.snd

/-- Modelled from the spec (cooker.rs is not among the visible sources):
resolution step (1) for a single Var — the caller binding if supplied,
else the declared default, else a failure when required, else empty. -/
def resolveVar (b : List (String × String)) (v : Var) : Except CookError String :=
  match lookupA b v.name with
  | some s => .ok s
  | none =>
    match v.default with
    | some d => .ok d
    | none => if v.required then .error (.missingRequiredVar v.name) else .ok ""

/-- The total value function underlying `resolveVar` on the non-failing paths. -/
def resolveValue (b : List (String × String)) (v : Var) : String :=
  match lookupA b v.name with
  | some s => s
  | none => v.default.getD ""

/-- Modelled from the spec: resolve all declared Vars in order, producing
the `cooked_vars` association list. -/
def resolveVars (b : List (String × String)) : List Var → Except CookError (List (String × String))
  | [] => .ok []
  | v :: rest =>
    match resolveVar b v with
    | .error e => .error e
    | .ok s =>
      match resolveVars b rest with
      | .error e => .error e
      | .ok out => .ok ((v.name, s) :: out)

/-- Modelled from the spec: enum membership check for a supplied value. -/
def checkEnum (v : Var) (s : String) : Except CookError Unit :=
  match v.enum_values with
  | none => .ok ()
  | some es => if es.contains s then .ok () else .error (.invalidEnumValue v.name s es)

/-- Modelled from the spec: validation step (2) for one Var — a
caller-supplied value is checked against the declared pattern (via the
pattern matcher `pm`, the regex engine being external) and then the enum. -/
def validateVar (pm : String → String → Bool) (b : List (String × String)) (v : Var) :
    Except CookError Unit :=
  match lookupA b v.name with
  | none => .ok ()
  | some s =>
    match v.pattern with
    | none => checkEnum v s
    | some p => if pm p s then checkEnum v s else .error (.patternMismatch v.name s p)

/-- Modelled from the spec: validate all declared Vars in order. -/
def validateVars (pm : String → String → Bool) (b : List (String × String)) :
    List Var → Except CookError Unit
  | [] => .ok ()
  | v :: rest =>
    match validateVar pm b v with
    | .error e => .error e
    | .ok _ => validateVars pm b rest

/-- Opening delimiter character of a variable reference. -/
def lbrace : Char := Char.ofNat 123

/-- Closing delimiter character of a variable reference. -/
def rbrace : Char := Char.ofNat 125

mutual

/-- Modelled from the spec: single-pass, non-recursive substitution of
variable references inside a template string; a substituted value is never
re-scanned, and a reference naming an undeclared variable fails. -/
def substChars (res : List (String × String)) : List Char → Except CookError (List Char)
  | [] => .ok []
  | c :: rest =>
    if c = lbrace then substRef res [] rest
    else
      match substChars res rest with
      | .error e => .error e
      | .ok out => .ok (c :: out)

/-- Modelled from the spec: scan the variable name of an open reference up
to the closing delimiter, then splice in the resolved value. An
unterminated reference is copied literally. -/
def substRef (res : List (String × String)) (acc : List Char) :
    List Char → Except CookError (List Char)
  | [] => .ok (lbrace :: acc)
  | c :: rest =>
    if c = rbrace then
      match lookupA res (String.mk acc) with
      | none => .error (.unknownVariableReference (String.mk acc))
      | some v =>
        match substChars res rest with
        | .error e => .error e
        | .ok out => .ok (v.data ++ out)
    else substRef res (acc ++ [c]) rest

end

/-- Substitution over one string field. -/
def substField (res : List (String × String)) (s : String) : Except CookError String :=
  match substChars res s.data with
  | .error e => .error e
  | .ok out => .ok (String.mk out)

/-- Effectful map over a list, failing on the first error. -/
def mapExcept (f : α → Except ε β) : List α → Except ε (List β)
  | [] => .ok []
  | x :: rest =>
    match f x with
    | .error e => .error e
    | .ok y =>
      match mapExcept f rest with
      | .error e => .error e
      | .ok out => .ok (y :: out)

/-- Modelled from the spec: substitute the template-bearing fields of a Step
(title, description). -/
def substStep (res : List (String × String)) (s : Step) : Except CookError Step :=
  match substField res s.title with
  | .error e => .error e
  | .ok t =>
    match substField res s.description with
    | .error e => .error e
    | .ok d => .ok { s with title := t, description := d }

/-- Modelled from the spec: substitute the template-bearing fields of a Leg
(title, focus, description). -/
def substLeg (res : List (String × String)) (l : Leg) : Except CookError Leg :=
  match substField res l.title with
  | .error e => .error e
  | .ok t =>
    match substField res l.focus with
    | .error e => .error e
    | .ok fo =>
      match substField res l.description with
      | .error e => .error e
      | .ok d => .ok { l with title := t, focus := fo, description := d }

/-- Modelled from the spec: substitute the template-bearing field of a
Synthesis (description). -/
def substSynthesis (res : List (String × String)) (sy : Synthesis) : Except CookError Synthesis :=
  match sy.description with
  | none => .ok sy
  | some d =>
    match substField res d with
    | .error e => .error e
    | .ok d2 => .ok { sy with description := some d2 }

/-- Modelled from the spec: substitution step (3) across every
template-bearing string field of the formula. -/
def substFormula (res : List (String × String)) (f : Formula) : Except CookError Formula :=
  match substField res f.name with
  | .error e => .error e
  | .ok nm =>
    match substField res f.description with
    | .error e => .error e
    | .ok de =>
      match mapExcept (substStep res) f.steps with
      | .error e => .error e
      | .ok steps2 =>
        match mapExcept (substLeg res) f.legs with
        | .error e => .error e
        | .ok legs2 =>
          match (match f.synthesis with
                 | none => Except.ok Option.none
                 | some sy =>
                   match substSynthesis res sy with
                   | .error e => .error e
                   | .ok sy2 => .ok (some sy2)) with
          | .error e => .error e
          | .ok syn2 =>
            .ok { f with name := nm, description := de, steps := steps2,
                         legs := legs2, synthesis := syn2 }

/-- Modelled from the spec (cooker.rs is not among the visible sources):
the timestamp-independent core of cooking — resolve, validate, substitute. -/
def cookCore (pm : String → String → Bool) (f : Formula) (b : List (String × String)) :
    Except CookError (Formula × List (String × String)) :=
  match resolveVars b (varList f) with
  | .error e => .error e
  | .ok res =>
    match validateVars pm b (varList f) with
    | .error e => .error e
    | .ok _ =>
      match substFormula res f with
      | .error e => .error e
      | .ok f2 => .ok (f2, res)

/-- Modelled from the spec: `cook` — step (4) records cooked_vars, stamps
the supplied clock reading `now` as cooked_at, and keeps the original name. -/
def cook_formula (pm : String → String → Bool) (f : Formula) (b : List (String × String))
    (now : String) : Except CookError CookedFormula :=
  match cookCore pm f b with
  | .error e => .error e
  | .ok (f2, res) =>
    .ok { formula := f2, cooked_at := now, cooked_vars := res, original_name := f.name }

/-- Modelled from the spec (cooker.rs is not among the visible sources):
batch cooking applies `cook_formula` independently to each index-aligned
pair of the two input lists. -/
def cook_batch (pm : String → String → Bool) (fs : List Formula)
    (bs : List (List (String × String))) (now : String) :
    List (Except CookError CookedFormula) :=
  List.zipWith (fun f b => cook_formula pm f b now) fs bs

/-- A bead: one node of a molecule (spec section 4.3). -/
structure Bead where
  id : String
  title : String
  description : String
  predecessors : List String
deriving DecidableEq

/-- A molecule: an ordered sequence of beads. -/
structure Molecule where
  beads : List Bead
deriving DecidableEq

/-- Modelled from the spec: the bead built from a workflow Step —
predecessors are exactly `Step.needs`. -/
def stepBead (s : Step) : Bead :=
  { id := s.id, title := s.title, description := s.description, predecessors := s.needs }

/-- Modelled from the spec: the order values strictly below `o` that are
present among the legs. -/
def lowerOrders (legs : List Leg) (o : Nat) : List Nat :=
  legs.filterMap fun l =>
    match l.order with
    | some o2 => if o2 < o then some o2 else none
    | none => none

/-- Modelled from the spec: the next-lower order value present among the
legs, below `o`. -/
def prevOrder (legs : List Leg) (o : Nat) : Option Nat :=
  match lowerOrders legs o with
  | [] => none
  | x :: xs => some (xs.foldl max x)

/-- Modelled from the spec: predecessors of a Leg — all legs at the
next-lower order value present; a leg lacking `order` has none. -/
def legPreds (legs : List Leg) (l : Leg) : List String :=
  match l.order with
  | none => []
  | some o =>
    match prevOrder legs o with
    | none => []
    | some po => (legs.filter (fun l2 => l2.order == some po)).map Leg.id

/-- Modelled from the spec: the bead built from a convoy Leg. -/
def legBead (legs : List Leg) (l : Leg) : Bead :=
  { id := l.id, title := l.title, description := l.description,
    predecessors := legPreds legs l }

/-- Modelled from the spec: the single synthetic bead of an
expansion/aspect formula, wrapping `synthesis`, with no predecessors. -/
def synthBead (cf : CookedFormula) : Bead :=
  { id := "synthesis", title := cf.formula.name,
    description := (cf.formula.synthesis.map Synthesis.strategy).getD "",
    predecessors := [] }

/-- Modelled from the spec: the first needs-id of any step that is absent
from the declared step ids, if one exists. -/
def findDangling (ids : List String) : List Step → Option String
  | [] => none
  | s :: rest =>
    match s.needs.find? (fun p => !(ids.contains p)) with
    | some p => some p
    | none => findDangling ids rest

/-- Modelled from the spec: bead construction, dispatching on the formula
type; the dangling-reference check applies to a workflow's needs graph. -/
def buildBeads (cf : CookedFormula) : Except GraphError (List Bead) :=
  match cf.formula.formula_type with
  | .workflow =>
    match findDangling (cf.formula.steps.map Step.id) cf.formula.steps with
    | some p => .error (.danglingReference p)
    | none => .ok (cf.formula.steps.map stepBead)
  | .convoy => .ok (cf.formula.legs.map (legBead cf.formula.legs))
  | .expansion => .ok [synthBead cf]
  | .aspect => .ok [synthBead cf]

/-- A bead is eligible for emission once all its predecessors are done. -/
def eligible (doneIds : List String) (b : Bead) : Bool :=
  b.predecessors.all fun p => doneIds.contains p

/-- The bead with the lexicographically smallest id among `b` and `l`.
The comparison is on the underlying character lists, which is definitionally
the `String` order. -/
def minById (b : Bead) : List Bead → Bead
  | [] => b
  | c :: rest => if c.id.data < b.id.data then minById c rest else minById b rest

/-- The eligible bead with the lexicographically smallest id, if any. -/
def minEligible (doneIds : List String) (remaining : List Bead) : Option Bead :=
  match remaining.filter (eligible doneIds) with
  | [] => none
  | b :: rest => some (minById b rest)

/-- Remove the first bead carrying the given id. -/
def eraseId (i : String) : List Bead → List Bead
  | [] => []
  | b :: rest => if b.id = i then rest else b :: eraseId i rest

/-- Modelled from the spec: the topological-sort loop — at each step the
lexicographically smallest eligible bead is emitted; when none is eligible
the remaining ids are reported as a cycle. -/
def topoLoop : Nat → List Bead → List Bead → Except GraphError (List Bead)
  | _, done, [] => .ok done.reverse
  | 0, _, remaining => .error (.cycleDetected (remaining.map Bead.id))
  | fuel + 1, done, remaining =>
    match minEligible (done.map Bead.id) remaining with
    | none => .error (.cycleDetected (remaining.map Bead.id))
    | some m => topoLoop fuel (m :: done) (eraseId m.id remaining)

/-- Modelled from the spec: deterministic topological order over the
predecessor relation. -/
def topoSort (beads : List Bead) : Except GraphError (List Bead) :=
  topoLoop beads.length [] beads

/-- Modelled from the spec (molecule.rs is not among the visible sources):
the molecule compiler — build beads by formula type, then order them
topologically. -/
def generate_molecule (cf : CookedFormula) : Except GraphError Molecule :=
  match buildBeads cf with
  | .error e => .error e
  | .ok beads =>
    match topoSort beads with
    | .error e => .error e
    | .ok ordered => .ok { beads := ordered }

/-- A topological-validity check for a candidate emission order: each bead
may appear only once all its predecessors have appeared. -/
def validExt (doneIds : List String) : List Bead → Bool
  | [] => true
  | b :: rest => eligible doneIds b && validExt (b.id :: doneIds) rest

/-- Raw (pre-deserialization) form of a Step: every field as it appears in
the parsed document, present or absent. -/
structure RawStep where
  id : Option String
  title : Option String
  description : Option String
  needs : Option (List String)
  duration : Option Nat
  requires : Option (List String)
deriving DecidableEq

/-- Raw form of a Leg. -/
structure RawLeg where
  id : Option String
  title : Option String
  focus : Option String
  description : Option String
  agent : Option String
  order : Option Nat
deriving DecidableEq

/-- Raw form of a Var. -/
structure RawVar where
  name : Option String
  description : Option String
  default : Option String
  required : Option Bool
  pattern : Option String
  enum_values : Option (List String)
deriving DecidableEq

/-- Raw form of a Synthesis. -/
structure RawSynthesis where
  strategy : Option String
  format : Option String
  description : Option String
deriving DecidableEq

/-- Raw form of a Formula document: the fields the text supplied. The
tables/arrays-of-tables shapes of the text format are already resolved;
`name` carries the `formula` key and `ftype` the `type` key. -/
structure RawFormula where
  name : Option String
  description : Option String
  ftype : Option String
  version : Option Int
  legs : Option (List RawLeg)
  synthesis : Option RawSynthesis
  steps : Option (List RawStep)
  vars : Option (List (String × RawVar))
deriving DecidableEq

/-- Deserialization of a Step per the serde attributes in lib.rs: id,
title, description are mandatory; needs and requires default to empty;
duration defaults to absent. -/
def decodeStep (r : RawStep) : Except ParseError Step :=
  match r.id, r.title, r.description with
  | some i, some t, some d =>
    .ok { id := i, title := t, description := d, needs := r.needs.getD [],
          duration := r.duration, requires := r.requires.getD [] }
  | _, _, _ => .error (.schemaError "steps" "missing required field")

/-- Deserialization of a Leg per the serde attributes in lib.rs: id,
title, focus, description are mandatory; agent and order default to absent. -/
def decodeLeg (r : RawLeg) : Except ParseError Leg :=
  match r.id, r.title, r.focus, r.description with
  | some i, some t, some fo, some d =>
    .ok { id := i, title := t, focus := fo, description := d,
          agent := r.agent, order := r.order }
  | _, _, _, _ => .error (.schemaError "legs" "missing required field")

/-- Deserialization of a Var per the serde attributes in lib.rs: name is
mandatory; required defaults to false; the rest default to absent. -/
def decodeVar (r : RawVar) : Except ParseError Var :=
  match r.name with
  | some n =>
    .ok { name := n, description := r.description, default := r.default,
          required := r.required.getD false, pattern := r.pattern,
          enum_values := r.enum_values }
  | none => .error (.schemaError "vars" "missing required field")

/-- Deserialization of a Synthesis per the serde attributes in lib.rs:
strategy is mandatory; format and description default to absent. -/
def decodeSynthesis (r : RawSynthesis) : Except ParseError Synthesis :=
  match r.strategy with
  | some st => .ok { strategy := st, format := r.format, description := r.description }
  | none => .error (.schemaError "synthesis" "missing required field")

/-- Deserialization of the `type` tag per the lowercase serde renaming in
lib.rs. -/
def decodeFormulaType (t : String) : Except ParseError FormulaType :=
  if t = "convoy" then .ok .convoy
  else if t = "workflow" then .ok .workflow
  else if t = "expansion" then .ok .expansion
  else if t = "aspect" then .ok .aspect
  else .error (.schemaError "type" "unknown formula type")

/-- Deserialization of the version field per lib.rs: `default_version`
yields 1 when the field is omitted, and the `u32` target type accepts only
integers in `[0, 2^32)`. -/
def decodeVersion : Option Int → Except ParseError Nat
  | none => .ok 1
  | some v => if 0 ≤ v ∧ v < 2 ^ 32 then .ok v.toNat else .error (.schemaError "version" "out of range")

/-- Deserialization of the optional synthesis table. -/
def synDecode (s : Option RawSynthesis) : Except ParseError (Option Synthesis) :=
  match s with
  | none => .ok none
  | some rs =>
    match decodeSynthesis rs with
    | .error e => .error e
    | .ok sy => .ok (some sy)

/-- The validation-side check for the optional synthesis table. -/
def synCheck (s : Option RawSynthesis) : Bool :=
  match s with
  | none => true
  | some sy => sy.strategy.isSome

/-- Deserialization of a whole Formula per the serde attributes in lib.rs:
formula, description, type are mandatory; version defaults to 1; legs,
steps, vars default to empty; synthesis defaults to absent. -/
def decodeFormula (r : RawFormula) : Except ParseError Formula :=
  match r.name, r.description, r.ftype with
  | some nm, some de, some ty =>
    (match decodeFormulaType ty with
     | .error e => .error e
     | .ok ft =>
       match decodeVersion r.version with
       | .error e => .error e
       | .ok ver =>
         match mapExcept decodeLeg (r.legs.getD []) with
         | .error e => .error e
         | .ok legs2 =>
           match mapExcept decodeStep (r.steps.getD []) with
           | .error e => .error e
           | .ok steps2 =>
             match mapExcept (fun p => match decodeVar p.2 with
                                       | .error e => Except.error e
                                       | .ok v => .ok (p.1, v)) (r.vars.getD []) with
             | .error e => .error e
             | .ok vars2 =>
               match synDecode r.synthesis with
               | .error e => .error e
               | .ok syn2 =>
                 .ok { name := nm, description := de, formula_type := ft,
                       version := ver, legs := legs2, synthesis := syn2,
                       steps := steps2, vars := vars2 })
  | _, _, _ => .error (.schemaError "formula" "missing required field")

/-- All strings in the list pairwise distinct. -/
def allDistinct : List String → Bool
  | [] => true
  | x :: xs => !(xs.contains x) && allDistinct xs

/-- Modelled from the spec (parser.rs is not among the visible sources):
the structural schema checks of section 4.1 — non-empty name and
description, non-empty declared enums, unique non-empty Step/Leg ids, and
no step needing itself. -/
def checkFormula (f : Formula) : Except ParseError Unit :=
  if f.name = "" then .error (.schemaError "formula" "empty name")
  else if f.description = "" then .error (.schemaError "description" "empty description")
  else if (varList f).any (fun v => v.enum_values == some []) then
    .error (.schemaError "vars" "empty enum")
  else if !(allDistinct (f.steps.map Step.id)) then .error (.schemaError "steps" "duplicate id")
  else if f.steps.any (fun s => s.id == "") then .error (.schemaError "steps" "empty id")
  else if !(allDistinct (f.legs.map Leg.id)) then .error (.schemaError "legs" "duplicate id")
  else if f.legs.any (fun l => l.id == "") then .error (.schemaError "legs" "empty id")
  else if f.steps.any (fun s => s.needs.contains s.id) then
    .error (.schemaError "steps" "step needs itself")
  else .ok ()

/-- Modelled from the spec (parser.rs is not among the visible sources):
parsing over an already-tokenized document — deserialize the raw fields,
then enforce the schema checks. -/
def parse_formula_impl (r : RawFormula) : Except ParseError Formula :=
  match decodeFormula r with
  | .error e => .error e
  | .ok f =>
    match checkFormula f with
    | .error e => .error e
    | .ok _ => .ok f

/-- Modelled from the spec: `validate` runs the same checks as parsing
without building usable output — written as an independent flat Boolean
over the raw document, following the checklist of spec section 4.1. -/
def validate_formula_impl (r : RawFormula) : Bool :=
  r.name.isSome && r.description.isSome
  && (match r.ftype with
      | some t => t == "convoy" || t == "workflow" || t == "expansion" || t == "aspect"
      | none => false)
  && (match r.version with
      | none => true
      | some v => decide (0 ≤ v) && decide (v < 2 ^ 32))
  && (r.legs.getD []).all (fun l => l.id.isSome && l.title.isSome && l.focus.isSome && l.description.isSome)
  && (r.steps.getD []).all (fun s => s.id.isSome && s.title.isSome && s.description.isSome)
  && (r.vars.getD []).all (fun p => p.2.name.isSome)
  && synCheck r.synthesis
  && r.name.getD "" != ""
  && r.description.getD "" != ""
  && !((r.vars.getD []).any (fun p => p.2.enum_values == some []))
  && allDistinct ((r.steps.getD []).map (fun s => s.id.getD ""))
  && (r.steps.getD []).all (fun s => s.id.getD "" != "")
  && allDistinct ((r.legs.getD []).map (fun l => l.id.getD ""))
  && (r.legs.getD []).all (fun l => l.id.getD "" != "")
  && !((r.steps.getD []).any (fun s => (s.needs.getD []).contains (s.id.getD "")))


/-- A Var is missing in the sense of MissingRequiredVar: required, with no
caller binding and no declared default. -/
def varMissing (b : List (String × String)) (v : Var) : Bool :=
  v.required && (lookupA b v.name).isNone && v.default.isNone

/-- A caller-supplied value violates the Var's declared pattern (per the
pattern matcher `pm`) or its declared enum. -/
def varViolates (pm : String → String → Bool) (b : List (String × String)) (v : Var) : Bool :=
  match lookupA b v.name with
  | none => false
  | some s =>
    (match v.pattern with
     | some p => !(pm p s)
     | none => false)
    || (match v.enum_values with
        | some es => !(es.contains s)
        | none => false)

def rawNoVersion : RawFormula :=
  { name := some "f", description := some "d", ftype := some "workflow", version := none,
    legs := none, synthesis := none, steps := none, vars := none }

def rawNegVersion : RawFormula :=
  { rawNoVersion with version := some (-1) }

def fNoVersion : Formula :=
  { name := "f", description := "d", formula_type := .workflow, version := 1,
    legs := [], synthesis := none, steps := [], vars := [] }

def batchVarEnv : Var :=
  { name := "env", description := none, default := none, required := true,
    pattern := none, enum_values := none }

def batchFA : Formula :=
  { name := "a", description := "d", formula_type := .workflow, version := 1,
    legs := [], synthesis := none, steps := [], vars := [] }

def batchFB : Formula :=
  { batchFA with name := "b", vars := [("env", batchVarEnv)] }

def batchFC : Formula :=
  { batchFA with name := "c" }

def idemVarEnv : Var :=
  { name := "env", description := none, default := none, required := true,
    pattern := none, enum_values := none }

def idemF : Formula :=
  { name := "n", description := "d", formula_type := .workflow, version := 1,
    legs := [], synthesis := none, steps := [], vars := [("env", idemVarEnv)] }

def idemC1 : CookedFormula :=
  { formula := idemF, cooked_at := "t1", cooked_vars := [("env", "prod")],
    original_name := "n" }

def idemC2 : CookedFormula :=
  { idemC1 with cooked_at := "t2" }

def enumVarCol : Var :=
  { name := "col", description := none, default := none, required := false,
    pattern := none, enum_values := some ["red", "green"] }

def enumF : Formula :=
  { name := "e", description := "d", formula_type := .workflow, version := 1,
    legs := [], synthesis := none, steps := [], vars := [("col", enumVarCol)] }

def defVarEnv : Var :=
  { name := "env", description := none, default := some "dev", required := false,
    pattern := none, enum_values := none }

def defF : Formula :=
  { name := "g", description := "d", formula_type := .workflow, version := 1,
    legs := [], synthesis := none, steps := [], vars := [("env", defVarEnv)] }

/-- Rank of a bead id in a convoy: legs without order rank 0, a leg with
order o ranks o + 1; used to show convoy compilation never cycles. -/
def rankOf (legs : List Leg) (p : String) : Nat :=
  match legs.find? (fun l => l.id == p) with
  | some l =>
    match l.order with
    | none => 0
    | some o => o + 1
  | none => 0

def sampleStep (i : String) (ns : List String) : Step :=
  { id := i, title := i, description := i, needs := ns, duration := none, requires := [] }

def deployF : Formula :=
  { name := "deploy", description := "d", formula_type := .workflow, version := 1,
    legs := [], synthesis := none,
    steps := [sampleStep "ship" ["build"], sampleStep "build" []], vars := [] }

def deployCF : CookedFormula :=
  { formula := deployF, cooked_at := "t", cooked_vars := [], original_name := "deploy" }

def cycleF : Formula :=
  { deployF with steps := [sampleStep "A" ["B"], sampleStep "B" ["A"]] }

def cycleCF : CookedFormula :=
  { deployCF with formula := cycleF }

def sampleLeg (i : String) (o : Option Nat) : Leg :=
  { id := i, title := i, focus := i, description := i, agent := none, order := o }

def convoyF : Formula :=
  { name := "c", description := "d", formula_type := .convoy, version := 1,
    legs := [sampleLeg "x" (some 2), sampleLeg "y" (some 1), sampleLeg "z" none,
             sampleLeg "w" (some 2)],
    synthesis := none, steps := [], vars := [] }

def convoyCF : CookedFormula :=
  { deployCF with formula := convoyF }

def deployMol : Molecule :=
  { beads := [ { id := "build", title := "build", description := "build", predecessors := [] },
               { id := "ship", title := "ship", description := "ship",
                 predecessors := ["build"] } ] }

def convoyMol : Molecule :=
  { beads := [ { id := "y", title := "y", description := "y", predecessors := [] },
               { id := "w", title := "w", description := "w", predecessors := ["y"] },
               { id := "x", title := "x", description := "x", predecessors := ["y"] },
               { id := "z", title := "z", description := "z", predecessors := [] } ] }

/-- The Step a raw step decodes to when its mandatory fields are present. -/
def decodeStepD (r : RawStep) : Step :=
  { id := r.id.getD "", title := r.title.getD "", description := r.description.getD "",
    needs := r.needs.getD [], duration := r.duration, requires := r.requires.getD [] }

/-- The Leg a raw leg decodes to when its mandatory fields are present. -/
def decodeLegD (r : RawLeg) : Leg :=
  { id := r.id.getD "", title := r.title.getD "", focus := r.focus.getD "",
    description := r.description.getD "", agent := r.agent, order := r.order }

/-- The Var a raw var decodes to when its mandatory field is present. -/
def decodeVarD (r : RawVar) : Var :=
  { name := r.name.getD "", description := r.description, default := r.default,
    required := r.required.getD false, pattern := r.pattern, enum_values := r.enum_values }

/-- The Synthesis a raw synthesis decodes to when strategy is present. -/
def decodeSynthesisD (r : RawSynthesis) : Synthesis :=
  { strategy := r.strategy.getD "", format := r.format, description := r.description }

/-- The optional synthesis value produced when its check passes. -/
def synDecodeD (s : Option RawSynthesis) : Option Synthesis :=
  match s with
  | none => none
  | some rs => some (decodeSynthesisD rs)

/-! ### Helper lemmas -/

theorem zipWith_getElem?_some {α β γ : Type} (g : α → β → γ) :
    ∀ (l₁ : List α) (l₂ : List β) (i : Nat) (a : α) (b : β),
      l₁[i]? = some a → l₂[i]? = some b →
      (List.zipWith g l₁ l₂)[i]? = some (g a b)
  | [], _, _, _, _, h₁, _ => by simp at h₁
  | _ :: _, [], _, _, _, _, h₂ => by simp at h₂
  | x :: xs, y :: ys, 0, a, b, h₁, h₂ => by
    simp_all [List.zipWith]
  | x :: xs, y :: ys, i + 1, a, b, h₁, h₂ => by
    simp only [List.getElem?_cons_succ] at h₁ h₂
    simpa [List.zipWith] using zipWith_getElem?_some g xs ys i a b h₁ h₂

/-- Claim C2: each index-aligned pair given to cook_batch is cooked
independently — the output has the same length as the input, the slot at
index i is exactly the cooking of the pair at index i (so a failure is
recorded only in its own slot and cannot abort the batch), and the slot at
index i is unaffected by changes to any other slot's input. -/
theorem c2_cook_batch_isolation (pm : String → String → Bool) (fs : List Formula)
    (bs : List (List (String × String))) (now : String) (hlen : fs.length = bs.length) :
    (cook_batch pm fs bs now).length = fs.length
    ∧ (∀ (i : Nat) (f : Formula) (b : List (String × String)),
        fs[i]? = some f → bs[i]? = some b →
        (cook_batch pm fs bs now)[i]? = some (cook_formula pm f b now))
    ∧ (∀ (fs2 : List Formula) (bs2 : List (List (String × String)))
         (i : Nat) (f : Formula) (b : List (String × String)),
        fs2[i]? = some f → bs2[i]? = some b → fs[i]? = some f → bs[i]? = some b →
        (cook_batch pm fs2 bs2 now)[i]? = (cook_batch pm fs bs now)[i]?) := by
  refine ⟨?_, ?_, ?_⟩
  · simp [cook_batch, hlen]
  · intro i f b h₁ h₂
    exact zipWith_getElem?_some _ fs bs i f b h₁ h₂
  · intro fs2 bs2 i f b h₁ h₂ h₃ h₄
    simp only [cook_batch]
    rw [zipWith_getElem?_some _ fs2 bs2 i f b h₁ h₂,
        zipWith_getElem?_some _ fs bs i f b h₃ h₄]

/-- Claim C9: cooking is deterministic up to the timestamp — two successful
cooks of the same formula with the same bindings agree on cooked_vars, on
every substituted field of the formula, and on original_name; only
cooked_at carries the clock reading. -/
theorem c9_cook_idempotent (pm : String → String → Bool) (f : Formula)
    (b : List (String × String)) (t1 t2 : String) (c1 c2 : CookedFormula)
    (h1 : cook_formula pm f b t1 = .ok c1) (h2 : cook_formula pm f b t2 = .ok c2) :
    c1.cooked_vars = c2.cooked_vars ∧ c1.formula = c2.formula
    ∧ c1.original_name = c2.original_name ∧ c1.cooked_at = t1 ∧ c2.cooked_at = t2 := by
  unfold cook_formula at h1 h2
  cases hc : cookCore pm f b with
  | error e => rw [hc] at h1; exact absurd h1 (by simp)
  | ok pr =>
    rw [hc] at h1 h2
    cases pr with
    | mk f2 res =>
      simp only [Except.ok.injEq] at h1 h2
      rw [← h1, ← h2]
      exact ⟨rfl, rfl, rfl, rfl, rfl⟩

theorem parse_ok_decode {r : RawFormula} {f : Formula} (h : parse_formula_impl r = .ok f) :
    decodeFormula r = .ok f := by
  unfold parse_formula_impl at h
  cases hd : decodeFormula r with
  | error e => simp [hd] at h
  | ok g =>
    simp only [hd] at h
    cases hc : checkFormula g with
    | error e => simp [hc] at h
    | ok u =>
      simp only [hc] at h
      simp at h
      rw [h]

theorem decodeFormula_version {r : RawFormula} {f : Formula} (h : decodeFormula r = .ok f) :
    decodeVersion r.version = .ok f.version := by
  unfold decodeFormula at h
  repeat any_goals split at h
  any_goals exact Except.noConfusion h
  injection h with h
  rw [← h]
  assumption

/-- Claim C8: a well-formed document omitting `version` parses to a Formula
with version 1, and a negative `version` value is a parse error (the field
deserializes into `u32` with `default_version`, per lib.rs). -/
theorem c8_version_default (r : RawFormula) :
    (r.version = none → ∀ f : Formula, parse_formula_impl r = .ok f → f.version = 1)
    ∧ (∀ v : Int, r.version = some v → v < 0 → ∃ e, parse_formula_impl r = .error e) := by
  constructor
  · intro hv f hok
    have hd := decodeFormula_version (parse_ok_decode hok)
    rw [hv] at hd
    simp [decodeVersion] at hd
    omega
  · intro v hv hneg
    cases hp : parse_formula_impl r with
    | error e => exact ⟨e, rfl⟩
    | ok f =>
      exfalso
      have hd := decodeFormula_version (parse_ok_decode hp)
      rw [hv] at hd
      unfold decodeVersion at hd
      repeat any_goals split at hd
      all_goals simp_all
      all_goals omega

theorem c8_witness :
    fNoVersion.version = 1 ∧ ∃ e, parse_formula_impl rawNegVersion = .error e :=
  ⟨(c8_version_default rawNoVersion).1 rfl fNoVersion (by decide),
   (c8_version_default rawNegVersion).2 (-1) rfl (by decide)⟩

/-- Claim C10: deserialization defaults per the serde attributes in lib.rs —
omitted optional fields become: empty needs/requires, absent duration for a
Step; absent agent/order for a Leg; required = false and absent
description/default/pattern/enum for a Var; empty legs/steps/vars, absent
synthesis and version 1 for a Formula (given the mandatory fields). -/
theorem c10_deserialization_defaults :
    (∀ i t d : String,
      decodeStep { id := some i, title := some t, description := some d,
                   needs := none, duration := none, requires := none }
        = .ok { id := i, title := t, description := d,
                needs := [], duration := none, requires := [] })
    ∧ (∀ i t fo d : String,
      decodeLeg { id := some i, title := some t, focus := some fo, description := some d,
                  agent := none, order := none }
        = .ok { id := i, title := t, focus := fo, description := d,
                agent := none, order := none })
    ∧ (∀ n : String,
      decodeVar { name := some n, description := none, default := none,
                  required := none, pattern := none, enum_values := none }
        = .ok { name := n, description := none, default := none,
                required := false, pattern := none, enum_values := none })
    ∧ (∀ (nm de ty : String) (ft : FormulaType), decodeFormulaType ty = .ok ft →
      decodeFormula { name := some nm, description := some de, ftype := some ty,
                      version := none, legs := none, synthesis := none,
                      steps := none, vars := none }
        = .ok { name := nm, description := de, formula_type := ft, version := 1,
                legs := [], synthesis := none, steps := [], vars := [] }) := by
  refine ⟨fun i t d => rfl, fun i t fo d => rfl, fun n => rfl, ?_⟩
  intro nm de ty ft hft
  simp [decodeFormula, hft, decodeVersion, mapExcept, synDecode]

theorem c10_witness :
    decodeStep { id := some "s", title := some "t", description := some "d",
                 needs := none, duration := none, requires := none }
      = .ok { id := "s", title := "t", description := "d",
              needs := [], duration := none, requires := [] }
    ∧ decodeFormulaType "aspect" = .ok .aspect
    ∧ decodeFormula { name := some "f", description := some "d", ftype := some "aspect",
                      version := none, legs := none, synthesis := none,
                      steps := none, vars := none }
      = .ok { name := "f", description := "d", formula_type := .aspect, version := 1,
              legs := [], synthesis := none, steps := [], vars := [] } :=
  ⟨c10_deserialization_defaults.1 "s" "t" "d", by decide,
   c10_deserialization_defaults.2.2.2 "f" "d" "aspect" .aspect (by decide)⟩

theorem c2_witness :
    (cook_batch (fun _ _ => true) [batchFA, batchFB, batchFC] [[], [], []] "t0").length
      = [batchFA, batchFB, batchFC].length
    ∧ (cook_batch (fun _ _ => true) [batchFA, batchFB, batchFC] [[], [], []] "t0")[1]?
        = some (cook_formula (fun _ _ => true) batchFB [] "t0")
    ∧ cook_formula (fun _ _ => true) batchFB [] "t0" = .error (.missingRequiredVar "env")
    ∧ (cook_formula (fun _ _ => true) batchFA [] "t0").isOk = true
    ∧ (cook_formula (fun _ _ => true) batchFC [] "t0").isOk = true :=
  ⟨(c2_cook_batch_isolation (fun _ _ => true) [batchFA, batchFB, batchFC] [[], [], []] "t0"
      (by decide)).1,
   (c2_cook_batch_isolation (fun _ _ => true) [batchFA, batchFB, batchFC] [[], [], []] "t0"
      (by decide)).2.1 1 batchFB [] (by decide) (by decide),
   by decide, by decide, by decide⟩

theorem c9_witness :
    idemC1.cooked_vars = idemC2.cooked_vars ∧ idemC1.formula = idemC2.formula
    ∧ idemC1.original_name = idemC2.original_name
    ∧ idemC1.cooked_at = "t1" ∧ idemC2.cooked_at = "t2" :=
  c9_cook_idempotent (fun _ _ => true) idemF [("env", "prod")] "t1" "t2" idemC1 idemC2
    (by decide) (by decide)

theorem resolveVar_error_iff (b : List (String × String)) (v : Var) (e : CookError) :
    resolveVar b v = .error e ↔ varMissing b v = true ∧ e = .missingRequiredVar v.name := by
  unfold resolveVar varMissing
  cases hl : lookupA b v.name <;>
    cases hd : v.default <;>
      cases hr : v.required <;>
        simp [hl, hd, hr, eq_comm]

theorem resolveVar_ok_val {b : List (String × String)} {v : Var} {s : String}
    (h : resolveVar b v = .ok s) : s = resolveValue b v := by
  unfold resolveVar at h
  unfold resolveValue
  cases hl : lookupA b v.name <;> rw [hl] at h <;> simp [hl] at h ⊢
  · cases hd : v.default <;> rw [hd] at h <;> simp at h ⊢
    · cases hr : v.required <;> rw [hr] at h <;> simp_all
    · exact h.symm
  · exact h.symm

theorem resolveVar_ok_of_not_missing {b : List (String × String)} {v : Var}
    (h : varMissing b v = false) : resolveVar b v = .ok (resolveValue b v) := by
  unfold varMissing at h
  unfold resolveVar resolveValue
  cases hl : lookupA b v.name <;> simp [hl] at h ⊢
  cases hd : v.default <;> simp [hd] at h ⊢
  simp [h]

theorem resolveVars_error {b : List (String × String)} :
    ∀ {vs : List Var} {e : CookError}, resolveVars b vs = .error e →
      ∃ v ∈ vs, varMissing b v = true ∧ e = .missingRequiredVar v.name := by
  intro vs
  induction vs with
  | nil => intro e h; simp [resolveVars] at h
  | cons v rest ih =>
    intro e h
    unfold resolveVars at h
    cases hv : resolveVar b v with
    | error e2 =>
      rw [hv] at h
      simp at h
      rcases (resolveVar_error_iff b v e2).mp hv with ⟨hm, he⟩
      exact ⟨v, by simp, hm, h ▸ he⟩
    | ok s =>
      rw [hv] at h
      cases hr : resolveVars b rest with
      | error e3 =>
        rw [hr] at h
        simp at h
        rcases ih hr with ⟨w, hw, hm, he⟩
        exact ⟨w, by simp [hw], hm, h ▸ he⟩
      | ok out => rw [hr] at h; simp at h

theorem resolveVars_ok_val {b : List (String × String)} :
    ∀ {vs : List Var} {out : List (String × String)}, resolveVars b vs = .ok out →
      out = vs.map fun v => (v.name, resolveValue b v) := by
  intro vs
  induction vs with
  | nil => intro out h; simp [resolveVars] at h; simp [← h]
  | cons v rest ih =>
    intro out h
    unfold resolveVars at h
    cases hv : resolveVar b v with
    | error e2 => rw [hv] at h; simp at h
    | ok s =>
      rw [hv] at h
      cases hr : resolveVars b rest with
      | error e3 => rw [hr] at h; simp at h
      | ok out2 =>
        rw [hr] at h
        simp at h
        rw [← h, ih hr, resolveVar_ok_val hv]
        simp

theorem resolveVars_ok_of_not_missing {b : List (String × String)} :
    ∀ {vs : List Var}, (∀ v ∈ vs, varMissing b v = false) →
      resolveVars b vs = .ok (vs.map fun v => (v.name, resolveValue b v)) := by
  intro vs
  induction vs with
  | nil => intro _; simp [resolveVars]
  | cons v rest ih =>
    intro hall
    unfold resolveVars
    rw [resolveVar_ok_of_not_missing (hall v (by simp)),
        ih (fun w hw => hall w (by simp [hw]))]
    simp

theorem resolveVars_error_of_missing {b : List (String × String)} :
    ∀ {vs : List Var}, (∃ v ∈ vs, varMissing b v = true) →
      ∃ v ∈ vs, resolveVars b vs = .error (.missingRequiredVar v.name)
        ∧ varMissing b v = true := by
  intro vs
  induction vs with
  | nil => rintro ⟨v, hv, _⟩; simp at hv
  | cons v rest ih =>
    rintro ⟨w, hw, hm⟩
    cases hv : resolveVar b v with
    | error e2 =>
      rcases (resolveVar_error_iff b v e2).mp hv with ⟨hm2, he⟩
      exact ⟨v, by simp, by unfold resolveVars; rw [hv, he], hm2⟩
    | ok s =>
      have hvm : varMissing b v = false := by
        cases h2 : varMissing b v with
        | false => rfl
        | true =>
          have := (resolveVar_error_iff b v (.missingRequiredVar v.name)).mpr ⟨h2, rfl⟩
          rw [hv] at this; exact absurd this (by simp)
      have hwrest : w ∈ rest := by
        rcases List.mem_cons.mp hw with h | h
        · exact absurd (h ▸ hm) (by simp [hvm])
        · exact h
      rcases ih ⟨w, hwrest, hm⟩ with ⟨u, hu, herr, hum⟩
      refine ⟨u, by simp [hu], ?_, hum⟩
      unfold resolveVars
      rw [hv, herr]

theorem lookup_resolved {b : List (String × String)} :
    ∀ {vs : List Var}, (vs.map Var.name).Nodup →
      ∀ v ∈ vs, lookupA (vs.map fun w => (w.name, resolveValue b w)) v.name
        = some (resolveValue b v) := by
  intro vs
  induction vs with
  | nil => intro _ v hv; simp at hv
  | cons w rest ih =>
    intro hnd v hv
    simp only [List.map_cons, List.nodup_cons] at hnd
    rcases List.mem_cons.mp hv with h | h
    · subst h
      simp [lookupA]
    · have hne : w.name ≠ v.name := by
        intro hEq
        exact hnd.1 (hEq ▸ List.mem_map_of_mem Var.name h)
      simp only [List.map_cons, lookupA, if_neg hne]
      exact ih hnd.2 v h

theorem validateVar_ok_iff (pm : String → String → Bool) (b : List (String × String)) (v : Var) :
    validateVar pm b v = .ok () ↔ varViolates pm b v = false := by
  unfold validateVar varViolates checkEnum
  cases hl : lookupA b v.name with
  | none => simp
  | some s =>
    cases hp : v.pattern with
    | none =>
      cases he : v.enum_values with
      | none => simp
      | some es => by_cases hc : es.contains s <;> simp [hc]
    | some p =>
      by_cases hm : pm p s
      · cases he : v.enum_values with
        | none => simp [hm]
        | some es => by_cases hc : es.contains s <;> simp [hm, hc]
      · simp [hm]

theorem validateVar_error_shape {pm : String → String → Bool} {b : List (String × String)}
    {v : Var} {e : CookError} (h : validateVar pm b v = .error e) :
    ∃ s, lookupA b v.name = some s ∧
      ((∃ p, v.pattern = some p ∧ pm p s = false ∧ e = .patternMismatch v.name s p)
       ∨ (∃ es, v.enum_values = some es ∧ es.contains s = false
            ∧ e = .invalidEnumValue v.name s es)) := by
  unfold validateVar checkEnum at h
  cases hl : lookupA b v.name with
  | none => rw [hl] at h; simp at h
  | some s =>
    rw [hl] at h
    refine ⟨s, rfl, ?_⟩
    cases hp : v.pattern with
    | none =>
      rw [hp] at h
      cases he : v.enum_values with
      | none => rw [he] at h; simp at h
      | some es =>
        rw [he] at h
        by_cases hc : s ∈ es <;> simp [hc] at h
        exact Or.inr ⟨es, rfl, by simp [hc], h.symm⟩
    | some p =>
      rw [hp] at h
      by_cases hm : pm p s <;> simp [hm] at h
      · cases he : v.enum_values with
        | none => rw [he] at h; simp at h
        | some es =>
          rw [he] at h
          by_cases hc : s ∈ es <;> simp [hc] at h
          exact Or.inr ⟨es, rfl, by simp [hc], h.symm⟩
      · exact Or.inl ⟨p, rfl, by simp [hm], h.symm⟩

theorem validateVar_not_ok {pm : String → String → Bool} {b : List (String × String)} {v : Var}
    (hviol : varViolates pm b v = true) : ∃ e, validateVar pm b v = .error e := by
  cases h : validateVar pm b v with
  | error e => exact ⟨e, rfl⟩
  | ok u =>
    cases u
    rw [(validateVar_ok_iff pm b v).mp h] at hviol
    exact absurd hviol (by simp)

theorem validateVars_error {pm : String → String → Bool} {b : List (String × String)} :
    ∀ {vs : List Var} {e : CookError}, validateVars pm b vs = .error e →
      ∃ v ∈ vs, validateVar pm b v = .error e := by
  intro vs
  induction vs with
  | nil => intro e h; simp [validateVars] at h
  | cons v rest ih =>
    intro e h
    unfold validateVars at h
    cases hv : validateVar pm b v with
    | error e2 => rw [hv] at h; simp at h; exact ⟨v, by simp, h ▸ hv⟩
    | ok u =>
      cases u
      rw [hv] at h
      simp at h
      rcases ih h with ⟨w, hw, he⟩
      exact ⟨w, by simp [hw], he⟩

theorem validateVars_ok {pm : String → String → Bool} {b : List (String × String)} :
    ∀ {vs : List Var}, validateVars pm b vs = .ok () →
      ∀ v ∈ vs, validateVar pm b v = .ok () := by
  intro vs
  induction vs with
  | nil => intro _ v hv; simp at hv
  | cons w rest ih =>
    intro h v hv
    unfold validateVars at h
    cases hw : validateVar pm b w with
    | error e2 => rw [hw] at h; simp at h
    | ok u =>
      cases u
      rw [hw] at h
      simp at h
      rcases List.mem_cons.mp hv with h2 | h2
      · exact h2 ▸ hw
      · exact ih h v h2

theorem validateVars_error_of_viol {pm : String → String → Bool} {b : List (String × String)} :
    ∀ {vs : List Var}, (∃ v ∈ vs, varViolates pm b v = true) →
      ∃ e, validateVars pm b vs = .error e := by
  intro vs
  induction vs with
  | nil => rintro ⟨v, hv, _⟩; simp at hv
  | cons w rest ih =>
    rintro ⟨v, hv, hviol⟩
    cases hw : validateVar pm b w with
    | error e2 => exact ⟨e2, by unfold validateVars; rw [hw]⟩
    | ok u =>
      cases u
      have hwv : varViolates pm b w = false := (validateVar_ok_iff pm b w).mp hw
      have hvrest : v ∈ rest := by
        rcases List.mem_cons.mp hv with h2 | h2
        · exact absurd (h2 ▸ hviol) (by simp [hwv])
        · exact h2
      rcases ih ⟨v, hvrest, hviol⟩ with ⟨e3, he3⟩
      exact ⟨e3, by unfold validateVars; rw [hw, he3]⟩

theorem substChars_error_shape (res : List (String × String)) :
    ∀ l : List Char,
      (∀ e, substChars res l = .error e → ∃ n, e = .unknownVariableReference n)
      ∧ (∀ acc e, substRef res acc l = .error e → ∃ n, e = .unknownVariableReference n) := by
  intro l
  induction l with
  | nil =>
    constructor
    · intro e h; simp [substChars] at h
    · intro acc e h; simp [substRef] at h
  | cons c rest ih =>
    constructor
    · intro e h
      unfold substChars at h
      by_cases hc : c = lbrace <;> simp [hc] at h
      · exact ih.2 [] e h
      · cases hs : substChars res rest with
        | error e2 => rw [hs] at h; simp at h; exact h ▸ ih.1 e2 hs
        | ok out => rw [hs] at h; simp at h
    · intro acc e h
      unfold substRef at h
      by_cases hc : c = rbrace <;> simp [hc] at h
      · cases hv : lookupA res (String.mk acc) with
        | none => rw [hv] at h; simp at h; exact ⟨String.mk acc, h.symm⟩
        | some v =>
          rw [hv] at h
          cases hs : substChars res rest with
          | error e2 => rw [hs] at h; simp at h; exact h ▸ ih.1 e2 hs
          | ok out => rw [hs] at h; simp at h
      · exact ih.2 (acc ++ [c]) e h

theorem substField_error_shape {res : List (String × String)} {s : String} {e : CookError}
    (h : substField res s = .error e) : ∃ n, e = .unknownVariableReference n := by
  unfold substField at h
  cases hs : substChars res s.data with
  | error e2 => rw [hs] at h; simp at h; exact h ▸ (substChars_error_shape res s.data).1 e2 hs
  | ok out => rw [hs] at h; simp at h

theorem mapExcept_error {α β ε : Type} {f : α → Except ε β} :
    ∀ {l : List α} {e : ε}, mapExcept f l = .error e → ∃ x ∈ l, f x = .error e := by
  intro l
  induction l with
  | nil => intro e h; simp [mapExcept] at h
  | cons x rest ih =>
    intro e h
    unfold mapExcept at h
    cases hx : f x with
    | error e2 => rw [hx] at h; simp at h; exact ⟨x, by simp, h ▸ hx⟩
    | ok y =>
      rw [hx] at h
      cases hr : mapExcept f rest with
      | error e3 => rw [hr] at h; simp at h; rcases ih hr with ⟨z, hz, he⟩; exact ⟨z, by simp [hz], h ▸ he⟩
      | ok out => rw [hr] at h; simp at h

theorem substStep_error_shape {res : List (String × String)} {s : Step} {e : CookError}
    (h : substStep res s = .error e) : ∃ n, e = .unknownVariableReference n := by
  unfold substStep at h
  cases h1 : substField res s.title with
  | error e2 => rw [h1] at h; simp at h; exact h ▸ substField_error_shape h1
  | ok t =>
    rw [h1] at h
    cases h2 : substField res s.description with
    | error e3 => rw [h2] at h; simp at h; exact h ▸ substField_error_shape h2
    | ok d => rw [h2] at h; simp at h

theorem substLeg_error_shape {res : List (String × String)} {l : Leg} {e : CookError}
    (h : substLeg res l = .error e) : ∃ n, e = .unknownVariableReference n := by
  unfold substLeg at h
  cases h1 : substField res l.title with
  | error e2 => rw [h1] at h; simp at h; exact h ▸ substField_error_shape h1
  | ok t =>
    rw [h1] at h
    cases h2 : substField res l.focus with
    | error e3 => rw [h2] at h; simp at h; exact h ▸ substField_error_shape h2
    | ok fo =>
      rw [h2] at h
      cases h3 : substField res l.description with
      | error e4 => rw [h3] at h; simp at h; exact h ▸ substField_error_shape h3
      | ok d => rw [h3] at h; simp at h

theorem substSynthesis_error_shape {res : List (String × String)} {sy : Synthesis} {e : CookError}
    (h : substSynthesis res sy = .error e) : ∃ n, e = .unknownVariableReference n := by
  unfold substSynthesis at h
  cases hd : sy.description with
  | none => rw [hd] at h; simp at h
  | some d =>
    rw [hd] at h
    simp at h
    cases h1 : substField res d with
    | error e2 => rw [h1] at h; simp at h; exact h ▸ substField_error_shape h1
    | ok d2 => rw [h1] at h; simp at h

theorem substFormula_error_shape {res : List (String × String)} {f : Formula} {e : CookError}
    (h : substFormula res f = .error e) : ∃ n, e = .unknownVariableReference n := by
  unfold substFormula at h
  cases h1 : substField res f.name with
  | error e2 => rw [h1] at h; simp at h; exact h ▸ substField_error_shape h1
  | ok nm =>
  rw [h1] at h
  cases h2 : substField res f.description with
  | error e3 => rw [h2] at h; simp at h; exact h ▸ substField_error_shape h2
  | ok de =>
  rw [h2] at h
  cases h3 : mapExcept (substStep res) f.steps with
  | error e4 =>
    rw [h3] at h; simp at h
    rcases mapExcept_error h3 with ⟨s, _, hs⟩
    exact h ▸ substStep_error_shape hs
  | ok steps2 =>
  rw [h3] at h
  cases h4 : mapExcept (substLeg res) f.legs with
  | error e5 =>
    rw [h4] at h; simp at h
    rcases mapExcept_error h4 with ⟨l2, _, hl⟩
    exact h ▸ substLeg_error_shape hl
  | ok legs2 =>
  rw [h4] at h
  cases hsy : f.synthesis with
  | none => rw [hsy] at h; simp at h
  | some sy =>
    rw [hsy] at h
    simp at h
    cases h5 : substSynthesis res sy with
    | error e6 => rw [h5] at h; simp at h; exact h ▸ substSynthesis_error_shape h5
    | ok sy2 => rw [h5] at h; simp at h

theorem varMissing_iff {b : List (String × String)} {v : Var} :
    varMissing b v = true ↔ v.required = true ∧ lookupA b v.name = none ∧ v.default = none := by
  unfold varMissing
  cases lookupA b v.name <;> cases v.default <;> cases hr : v.required <;> simp [hr]

theorem varViolates_iff {pm : String → String → Bool} {b : List (String × String)} {v : Var} :
    varViolates pm b v = true ↔
      ∃ s, lookupA b v.name = some s ∧
        ((∃ p, v.pattern = some p ∧ pm p s = false)
         ∨ (∃ es, v.enum_values = some es ∧ es.contains s = false)) := by
  unfold varViolates
  cases hl : lookupA b v.name with
  | none => simp
  | some s =>
    cases hp : v.pattern with
    | none =>
      cases he : v.enum_values with
      | none => simp
      | some es => by_cases hc : es.contains s <;> simp [hc]
    | some p =>
      cases he : v.enum_values with
      | none => by_cases hm : pm p s <;> simp [hm]
      | some es =>
        by_cases hm : pm p s <;> by_cases hc : es.contains s <;> simp [hm, hc]

theorem resolveValue_binding {b : List (String × String)} {v : Var} {s : String}
    (h : lookupA b v.name = some s) : resolveValue b v = s := by
  unfold resolveValue; rw [h]

theorem resolveValue_default {b : List (String × String)} {v : Var} {d : String}
    (h : lookupA b v.name = none) (hd : v.default = some d) : resolveValue b v = d := by
  unfold resolveValue; rw [h, hd]; rfl

theorem resolveValue_empty {b : List (String × String)} {v : Var}
    (h : lookupA b v.name = none) (hd : v.default = none) : resolveValue b v = "" := by
  unfold resolveValue; rw [h, hd]; rfl

theorem cook_formula_ok_parts {pm : String → String → Bool} {f : Formula}
    {b : List (String × String)} {t : String} {c : CookedFormula}
    (h : cook_formula pm f b t = .ok c) :
    ∃ res f2, resolveVars b (varList f) = .ok res ∧ c.cooked_vars = res
      ∧ validateVars pm b (varList f) = .ok () ∧ substFormula res f = .ok f2
      ∧ c.formula = f2 ∧ c.original_name = f.name ∧ c.cooked_at = t := by
  unfold cook_formula cookCore at h
  cases h1 : resolveVars b (varList f) with
  | error e => rw [h1] at h; simp at h
  | ok res =>
  rw [h1] at h
  simp only [Except.ok.injEq] at h ⊢
  refine ⟨res, ?_⟩
  cases h2 : validateVars pm b (varList f) with
  | error e => rw [h2] at h; simp at h
  | ok u =>
  cases u
  rw [h2] at h
  cases h3 : substFormula res f with
  | error e => rw [h3] at h; simp at h
  | ok f2 =>
    rw [h3] at h
    simp at h
    exact ⟨f2, rfl, by rw [← h], rfl, rfl, by rw [← h], by rw [← h], by rw [← h]⟩

theorem cook_formula_error_core {pm : String → String → Bool} {f : Formula}
    {b : List (String × String)} {t : String} {e : CookError}
    (h : cook_formula pm f b t = .error e) : cookCore pm f b = .error e := by
  unfold cook_formula at h
  cases hc : cookCore pm f b with
  | error e2 => rw [hc] at h; simp at h; rw [h]
  | ok pr => rw [hc] at h; cases pr; simp at h

theorem cookCore_error_parts {pm : String → String → Bool} {f : Formula}
    {b : List (String × String)} {e : CookError} (h : cookCore pm f b = .error e) :
    resolveVars b (varList f) = .error e
    ∨ (∃ res, resolveVars b (varList f) = .ok res ∧ validateVars pm b (varList f) = .error e)
    ∨ (∃ res, resolveVars b (varList f) = .ok res ∧ validateVars pm b (varList f) = .ok ()
        ∧ substFormula res f = .error e) := by
  unfold cookCore at h
  cases h1 : resolveVars b (varList f) with
  | error e2 => rw [h1] at h; simp at h; exact Or.inl (by rw [h])
  | ok res =>
  rw [h1] at h
  simp at h
  cases h2 : validateVars pm b (varList f) with
  | error e2 => rw [h2] at h; simp at h; exact Or.inr (Or.inl ⟨res, rfl, by rw [h]⟩)
  | ok u =>
  cases u
  rw [h2] at h
  simp at h
  cases h3 : substFormula res f with
  | error e2 => rw [h3] at h; simp at h; exact Or.inr (Or.inr ⟨res, rfl, rfl, by rw [← h]; exact h3⟩)
  | ok f2 => rw [h3] at h; simp at h

theorem cookCore_error_of_resolve {pm : String → String → Bool} {f : Formula}
    {b : List (String × String)} {e : CookError}
    (h : resolveVars b (varList f) = .error e) : cook_formula pm f b "" = .error e ∧
      ∀ t, cook_formula pm f b t = .error e := by
  have hc : cookCore pm f b = .error e := by unfold cookCore; rw [h]
  constructor <;> [skip; intro t] <;> unfold cook_formula <;> rw [hc]

theorem cookCore_error_of_validate {pm : String → String → Bool} {f : Formula}
    {b : List (String × String)} {res : List (String × String)} {e : CookError}
    (h1 : resolveVars b (varList f) = .ok res) (h2 : validateVars pm b (varList f) = .error e) :
    ∀ t, cook_formula pm f b t = .error e := by
  intro t
  have hc : cookCore pm f b = .error e := by unfold cookCore; rw [h1, h2]
  unfold cook_formula
  rw [hc]

/-- Claim C3: cook resolves each declared Var to the caller binding if
supplied, else to its declared default; it fails with
MissingRequiredVar(name) exactly when some declared Var is required, has no
caller binding and no default (and the reported name is such a Var's
name); a non-required Var with neither binding nor default resolves to
empty. -/
theorem c3_cook_resolution (pm : String → String → Bool) (f : Formula)
    (b : List (String × String)) (t : String)
    (hnd : ((varList f).map Var.name).Nodup) :
    ((∃ n, cook_formula pm f b t = .error (.missingRequiredVar n))
       ↔ ∃ v ∈ varList f, v.required = true ∧ lookupA b v.name = none ∧ v.default = none)
    ∧ (∀ n, cook_formula pm f b t = .error (.missingRequiredVar n) →
        ∃ v ∈ varList f, v.name = n ∧ v.required = true ∧ lookupA b v.name = none
          ∧ v.default = none)
    ∧ (∀ c, cook_formula pm f b t = .ok c → ∀ v ∈ varList f,
        (∀ s, lookupA b v.name = some s → lookupA c.cooked_vars v.name = some s)
        ∧ (∀ d, lookupA b v.name = none → v.default = some d →
            lookupA c.cooked_vars v.name = some d)
        ∧ (lookupA b v.name = none → v.default = none →
            lookupA c.cooked_vars v.name = some "")) := by
  have extract : ∀ n, cook_formula pm f b t = .error (.missingRequiredVar n) →
      ∃ v ∈ varList f, v.name = n ∧ v.required = true ∧ lookupA b v.name = none
        ∧ v.default = none := by
    intro n h
    have hc := cook_formula_error_core h
    rcases cookCore_error_parts hc with h1 | ⟨res, h1, h2⟩ | ⟨res, h1, h2, h3⟩
    · rcases resolveVars_error h1 with ⟨v, hv, hm, he⟩
      rcases varMissing_iff.mp hm with ⟨hr, hl, hd⟩
      cases he
      exact ⟨v, hv, rfl, hr, hl, hd⟩
    · rcases validateVars_error h2 with ⟨v, hv, he⟩
      rcases validateVar_error_shape he with ⟨s, _, ⟨p, _, _, hee⟩ | ⟨es, _, _, hee⟩⟩ <;>
        simp at hee
    · rcases substFormula_error_shape h3 with ⟨m, hm⟩
      simp at hm
  refine ⟨⟨?_, ?_⟩, extract, ?_⟩
  · rintro ⟨n, h⟩
    rcases extract n h with ⟨v, hv, _, hr, hl, hd⟩
    exact ⟨v, hv, hr, hl, hd⟩
  · rintro ⟨v, hv, hr, hl, hd⟩
    have hm : varMissing b v = true := varMissing_iff.mpr ⟨hr, hl, hd⟩
    rcases resolveVars_error_of_missing ⟨v, hv, hm⟩ with ⟨u, hu, herr, hum⟩
    exact ⟨u.name, ((cookCore_error_of_resolve herr).2 t)⟩
  · intro c hok v hv
    rcases cook_formula_ok_parts hok with ⟨res, f2, h1, hcv, _⟩
    have hres : res = (varList f).map fun w => (w.name, resolveValue b w) :=
      resolveVars_ok_val h1
    have hlook : lookupA c.cooked_vars v.name = some (resolveValue b v) := by
      rw [hcv, hres]
      exact lookup_resolved hnd v hv
    refine ⟨?_, ?_, ?_⟩
    · intro s hs; rw [hlook, resolveValue_binding hs]
    · intro d hl hd; rw [hlook, resolveValue_default hl hd]
    · intro hl hd; rw [hlook, resolveValue_empty hl hd]

theorem c3_witness :
    (∃ n, cook_formula (fun _ _ => true) batchFB [] "t0" = .error (.missingRequiredVar n))
    ∧ ∀ c, cook_formula (fun _ _ => true) defF [] "t0" = .ok c →
        lookupA c.cooked_vars "env" = some "dev" :=
  ⟨(c3_cook_resolution (fun _ _ => true) batchFB [] "t0" (by decide)).1.mpr
     ⟨batchVarEnv, by decide, by decide, by decide, by decide⟩,
   fun c hc =>
     ((c3_cook_resolution (fun _ _ => true) defF [] "t0" (by decide)).2.2 c hc
        defVarEnv (by decide)).2.1 "dev" (by decide) (by decide)⟩

/-- Claim C4: every caller-supplied value is validated against the Var's
declared pattern and enum; a violation means no CookedFormula is ever
returned (all-or-nothing — in this pure embedding no substitution output
exists on error); when no variable is missing-required the reported error
is a PatternMismatch or InvalidEnumValue, and any such reported error names
a genuinely violating variable, value and constraint. -/
theorem c4_cook_validation (pm : String → String → Bool) (f : Formula)
    (b : List (String × String)) (t : String) :
    (∀ v ∈ varList f, ∀ s, lookupA b v.name = some s →
       ((∃ p, v.pattern = some p ∧ pm p s = false)
        ∨ (∃ es, v.enum_values = some es ∧ es.contains s = false)) →
       ∀ c, cook_formula pm f b t ≠ .ok c)
    ∧ ((∀ v ∈ varList f, ¬(v.required = true ∧ lookupA b v.name = none ∧ v.default = none)) →
       (∃ v ∈ varList f, ∃ s, lookupA b v.name = some s ∧
          ((∃ p, v.pattern = some p ∧ pm p s = false)
           ∨ (∃ es, v.enum_values = some es ∧ es.contains s = false))) →
       ∃ e, cook_formula pm f b t = .error e
         ∧ ((∃ n s p, e = .patternMismatch n s p) ∨ (∃ n s es, e = .invalidEnumValue n s es)))
    ∧ (∀ e, cook_formula pm f b t = .error e →
       (∀ n s p, e = .patternMismatch n s p →
          ∃ v ∈ varList f, v.name = n ∧ lookupA b v.name = some s ∧ v.pattern = some p
            ∧ pm p s = false)
       ∧ (∀ n s es, e = .invalidEnumValue n s es →
          ∃ v ∈ varList f, v.name = n ∧ lookupA b v.name = some s ∧ v.enum_values = some es
            ∧ es.contains s = false)) := by
  refine ⟨?_, ?_, ?_⟩
  · intro v hv s hs hviol c hok
    rcases cook_formula_ok_parts hok with ⟨res, f2, _, _, hval, _⟩
    have hok2 := validateVars_ok hval v hv
    have hfalse := (validateVar_ok_iff pm b v).mp hok2
    have htrue : varViolates pm b v = true := varViolates_iff.mpr ⟨s, hs, hviol⟩
    rw [hfalse] at htrue
    exact absurd htrue (by simp)
  · intro hnomiss hviol
    have hallnm : ∀ v ∈ varList f, varMissing b v = false := by
      intro v hv
      cases hm : varMissing b v with
      | false => rfl
      | true => exact absurd (varMissing_iff.mp hm) (hnomiss v hv)
    have h1 := resolveVars_ok_of_not_missing hallnm
    rcases hviol with ⟨v, hv, s, hs, hdis⟩
    have hvt : varViolates pm b v = true := varViolates_iff.mpr ⟨s, hs, hdis⟩
    rcases validateVars_error_of_viol ⟨v, hv, hvt⟩ with ⟨e, he⟩
    refine ⟨e, cookCore_error_of_validate h1 he t, ?_⟩
    rcases validateVars_error he with ⟨w, hw, hwe⟩
    rcases validateVar_error_shape hwe with ⟨s2, _, ⟨p, _, _, hee⟩ | ⟨es, _, _, hee⟩⟩
    · exact Or.inl ⟨w.name, s2, p, hee⟩
    · exact Or.inr ⟨w.name, s2, es, hee⟩
  · intro e herr
    have hc := cook_formula_error_core herr
    rcases cookCore_error_parts hc with h1 | ⟨res, h1, h2⟩ | ⟨res, h1, h2, h3⟩
    · rcases resolveVars_error h1 with ⟨v, hv, hm, he⟩
      subst he
      exact ⟨fun n s p hne => absurd hne (by simp), fun n s es hne => absurd hne (by simp)⟩
    · rcases validateVars_error h2 with ⟨v, hv, he⟩
      rcases validateVar_error_shape he with ⟨s2, hl2, ⟨p, hp, hpm, hee⟩ | ⟨es, hes, hc2, hee⟩⟩
      · subst hee
        refine ⟨fun n s q hne => ?_, fun n s es2 hne => absurd hne (by simp)⟩
        rw [CookError.patternMismatch.injEq] at hne
        rcases hne with ⟨hn, hs, hq⟩
        exact ⟨v, hv, hn, hs ▸ hl2, hq ▸ hp, hq ▸ hs ▸ hpm⟩
      · subst hee
        refine ⟨fun n s q hne => absurd hne (by simp), fun n s es2 hne => ?_⟩
        rw [CookError.invalidEnumValue.injEq] at hne
        rcases hne with ⟨hn, hs, hq⟩
        exact ⟨v, hv, hn, hs ▸ hl2, hq ▸ hes, hq ▸ hs ▸ hc2⟩
    · rcases substFormula_error_shape h3 with ⟨m, hm⟩
      subst hm
      exact ⟨fun n s p hne => absurd hne (by simp), fun n s es hne => absurd hne (by simp)⟩

theorem c4_witness :
    (∀ c, cook_formula (fun _ _ => true) enumF [("col", "blue")] "t0" ≠ .ok c)
    ∧ ∃ e, cook_formula (fun _ _ => true) enumF [("col", "blue")] "t0" = .error e
        ∧ ((∃ n s p, e = .patternMismatch n s p)
           ∨ (∃ n s es, e = .invalidEnumValue n s es)) :=
  ⟨(c4_cook_validation (fun _ _ => true) enumF [("col", "blue")] "t0").1 enumVarCol
     (by decide) "blue" (by decide) (Or.inr ⟨["red", "green"], rfl, by decide⟩),
   (c4_cook_validation (fun _ _ => true) enumF [("col", "blue")] "t0").2.1
     (by decide)
     ⟨enumVarCol, by decide, "blue", by decide, Or.inr ⟨["red", "green"], rfl, by decide⟩⟩⟩

theorem strLt_data_iff (a c : String) : a.data < c.data ↔ a < c :=
  String.lt_iff_toList_lt.symm

theorem minById_mem (b : Bead) : ∀ l : List Bead, minById b l ∈ b :: l := by
  intro l
  induction l generalizing b with
  | nil => simp [minById]
  | cons c rest ih =>
    unfold minById
    by_cases hlt : c.id.data < b.id.data <;> simp only [hlt, if_true, if_false, ite_true, ite_false]
    · rcases List.mem_cons.mp (ih c) with h | h
      · simp [h]
      · simp [List.mem_cons.mpr (Or.inr (List.mem_cons.mpr (Or.inr h)))]
    · rcases List.mem_cons.mp (ih b) with h | h
      · simp [h]
      · simp [List.mem_cons.mpr (Or.inr (List.mem_cons.mpr (Or.inr h)))]

theorem minById_le (b : Bead) :
    ∀ l : List Bead, ∀ c ∈ b :: l, (minById b l).id ≤ c.id := by
  intro l
  induction l generalizing b with
  | nil => intro c hc; simp at hc; simp [minById, hc]
  | cons d rest ih =>
    intro c hc
    unfold minById
    by_cases hlt : d.id.data < b.id.data <;>
      simp only [hlt, if_true, if_false, ite_true, ite_false]
    · have hdb : d.id < b.id := (strLt_data_iff d.id b.id).mp hlt
      rcases List.mem_cons.mp hc with h | h
      · rw [h]
        exact le_trans (ih d d (by simp)) (le_of_lt hdb)
      · rcases List.mem_cons.mp h with h2 | h2
        · rw [h2]
          exact ih d d (by simp)
        · exact ih d c (by simp [h2])
    · have hbd : b.id ≤ d.id := le_of_not_lt (fun hc2 => hlt ((strLt_data_iff d.id b.id).mpr hc2))
      rcases List.mem_cons.mp hc with h | h
      · rw [h]
        exact ih b b (by simp)
      · rcases List.mem_cons.mp h with h2 | h2
        · rw [h2]
          exact le_trans (ih b b (by simp)) hbd
        · exact ih b c (by simp [h2])

theorem minEligible_some {doneIds : List String} {remaining : List Bead} {m : Bead}
    (h : minEligible doneIds remaining = some m) :
    m ∈ remaining ∧ eligible doneIds m = true
      ∧ ∀ c ∈ remaining, eligible doneIds c = true → m.id ≤ c.id := by
  unfold minEligible at h
  cases hf : remaining.filter (eligible doneIds) with
  | nil => rw [hf] at h; simp at h
  | cons b rest =>
    rw [hf] at h
    simp at h
    have hmem : m ∈ b :: rest := h ▸ minById_mem b rest
    have hmf : m ∈ remaining.filter (eligible doneIds) := hf ▸ hmem
    refine ⟨List.mem_of_mem_filter hmf, List.of_mem_filter hmf, ?_⟩
    intro c hc helig
    have hcf : c ∈ remaining.filter (eligible doneIds) := List.mem_filter.mpr ⟨hc, helig⟩
    rw [hf] at hcf
    exact h ▸ minById_le b rest c hcf

theorem minEligible_none {doneIds : List String} {remaining : List Bead}
    (h : minEligible doneIds remaining = none) :
    ∀ c ∈ remaining, eligible doneIds c = false := by
  unfold minEligible at h
  cases hf : remaining.filter (eligible doneIds) with
  | nil =>
    intro c hc
    cases he : eligible doneIds c with
    | false => rfl
    | true =>
      have : c ∈ remaining.filter (eligible doneIds) := List.mem_filter.mpr ⟨hc, he⟩
      rw [hf] at this
      simp at this
  | cons b rest => rw [hf] at h; simp at h

theorem eraseId_map_id (i : String) :
    ∀ l : List Bead, (eraseId i l).map Bead.id = (l.map Bead.id).erase i := by
  intro l
  induction l with
  | nil => simp [eraseId]
  | cons b rest ih =>
    unfold eraseId
    by_cases hb : b.id = i <;> simp only [hb, if_true, if_false, ite_true, ite_false]
    · simp [List.erase_cons, hb]
    · simp [List.erase_cons, hb, ih]

theorem eraseId_subset {i : String} : ∀ {l : List Bead}, ∀ b ∈ eraseId i l, b ∈ l := by
  intro l
  induction l with
  | nil => intro b hb; simp [eraseId] at hb
  | cons c rest ih =>
    intro b hb
    unfold eraseId at hb
    by_cases hc : c.id = i <;> simp only [hc, if_true, if_false, ite_true, ite_false] at hb
    · simp [hb]
    · rcases List.mem_cons.mp hb with h | h
      · simp [h]
      · simp [ih b h]

theorem eraseId_perm : ∀ {l : List Bead} {m : Bead}, (l.map Bead.id).Nodup → m ∈ l →
    l.Perm (m :: eraseId m.id l) := by
  intro l
  induction l with
  | nil => intro m _ hm; simp at hm
  | cons b rest ih =>
    intro m hnd hm
    by_cases hb : b.id = m.id
    · have hbm : b = m := by
        rcases List.mem_cons.mp hm with h | h
        · exact h.symm
        · exact List.inj_on_of_nodup_map hnd (by simp) (by simp [h]) hb
      subst hbm
      unfold eraseId
      simp
    · have hmr : m ∈ rest := by
        rcases List.mem_cons.mp hm with h | h
        · exact absurd (congrArg Bead.id h.symm) hb
        · exact h
      have hnd2 : (rest.map Bead.id).Nodup := by
        simp only [List.map_cons, List.nodup_cons] at hnd
        exact hnd.2
      have hp := ih hnd2 hmr
      unfold eraseId
      simp only [hb, if_false, ite_false]
      exact (hp.cons b).trans (List.Perm.swap m b (eraseId m.id rest))

theorem topoLoop_nil (fuel : Nat) (done : List Bead) :
    topoLoop fuel done [] = .ok done.reverse := by
  cases fuel <;> rfl

theorem topoLoop_ok_spec :
    ∀ (fuel : Nat) (done remaining out : List Bead),
      ((done ++ remaining).map Bead.id).Nodup →
      topoLoop fuel done remaining = .ok out →
      ∃ tail, out = done.reverse ++ tail ∧ remaining.Perm tail
        ∧ validExt (done.map Bead.id) tail = true
        ∧ ∀ alt, remaining.Perm alt → validExt (done.map Bead.id) alt = true →
            tail.map Bead.id = alt.map Bead.id
            ∨ List.Lex (· < ·) (tail.map Bead.id) (alt.map Bead.id) := by
  intro fuel
  induction fuel with
  | zero =>
    intro done remaining out hnd h
    cases remaining with
    | nil =>
      rw [topoLoop_nil] at h
      simp at h
      refine ⟨[], by simp [← h], .refl [], rfl, ?_⟩
      intro alt halt _
      rw [List.Perm.eq_nil halt.symm]
      exact Or.inl rfl
    | cons r rs => simp [topoLoop] at h
  | succ n ih =>
    intro done remaining out hnd h
    cases remaining with
    | nil =>
      rw [topoLoop_nil] at h
      simp at h
      refine ⟨[], by simp [← h], .refl [], rfl, ?_⟩
      intro alt halt _
      rw [List.Perm.eq_nil halt.symm]
      exact Or.inl rfl
    | cons r rs =>
      unfold topoLoop at h
      cases hm : minEligible (done.map Bead.id) (r :: rs) with
      | none => rw [hm] at h; simp at h
      | some m =>
        rw [hm] at h
        obtain ⟨hmem, helig, hmin⟩ := minEligible_some hm
        have hndapp : (done.map Bead.id ++ (r :: rs).map Bead.id).Nodup := by
          rw [← List.map_append]; exact hnd
        have hndr : ((r :: rs).map Bead.id).Nodup := hndapp.of_append_right
        have hperm0 : (r :: rs).Perm (m :: eraseId m.id (r :: rs)) := eraseId_perm hndr hmem
        have hpermBig : (done ++ (r :: rs)).Perm ((m :: done) ++ eraseId m.id (r :: rs)) := by
          have h1 : (done ++ (r :: rs)).Perm (done ++ (m :: eraseId m.id (r :: rs))) :=
            List.Perm.append_left done hperm0
          have h2 : (done ++ (m :: eraseId m.id (r :: rs))).Perm
              (m :: (done ++ eraseId m.id (r :: rs))) := List.perm_middle
          exact h1.trans h2
        have hnd2 : (((m :: done) ++ eraseId m.id (r :: rs)).map Bead.id).Nodup :=
          (hpermBig.map Bead.id).nodup_iff.mp hnd
        obtain ⟨tail2, hout, hperm2, hval2, hmin2⟩ :=
          ih (m :: done) (eraseId m.id (r :: rs)) out hnd2 h
        refine ⟨m :: tail2, ?_, ?_, ?_, ?_⟩
        · rw [hout]; simp
        · exact hperm0.trans (hperm2.cons m)
        · have : validExt (done.map Bead.id) (m :: tail2)
              = (eligible (done.map Bead.id) m && validExt (m.id :: done.map Bead.id) tail2) :=
            rfl
          rw [this, Bool.and_eq_true]
          exact ⟨helig, by simpa using hval2⟩
        · intro alt haltp hvalAlt
          cases alt with
          | nil => exact absurd (List.Perm.eq_nil haltp) (by simp)
          | cons a alt2 =>
            have hsplit : eligible (done.map Bead.id) a = true
                ∧ validExt (a.id :: done.map Bead.id) alt2 = true := by
              have : validExt (done.map Bead.id) (a :: alt2)
                  = (eligible (done.map Bead.id) a
                      && validExt (a.id :: done.map Bead.id) alt2) := rfl
              rw [this, Bool.and_eq_true] at hvalAlt
              exact hvalAlt
            obtain ⟨heliga, hvalAlt2⟩ := hsplit
            have hamem : a ∈ r :: rs := haltp.mem_iff.mpr (by simp)
            have hle : m.id ≤ a.id := hmin a hamem heliga
            rcases lt_or_eq_of_le hle with hlt | heq
            · right
              simp only [List.map_cons]
              exact List.Lex.rel hlt
            · have hma : m = a := List.inj_on_of_nodup_map hndr hmem hamem heq
              subst hma
              have hEalt : (eraseId m.id (r :: rs)).Perm alt2 :=
                (hperm0.symm.trans haltp).cons_inv
              have hvalAlt2b : validExt ((m :: done).map Bead.id) alt2 = true := by
                simpa using hvalAlt2
              rcases hmin2 alt2 hEalt hvalAlt2b with heq2 | hlex
              · left; simp [heq2]
              · right
                simp only [List.map_cons]
                exact List.Lex.cons hlex

theorem buildBeads_ids {cf : CookedFormula} {beads : List Bead}
    (h1 : (cf.formula.steps.map Step.id).Nodup) (h2 : (cf.formula.legs.map Leg.id).Nodup)
    (h : buildBeads cf = .ok beads) : (beads.map Bead.id).Nodup := by
  unfold buildBeads at h
  cases hft : cf.formula.formula_type <;> rw [hft] at h
  · simp at h
    rw [← h, List.map_map]
    exact h2
  · cases hfd : findDangling (cf.formula.steps.map Step.id) cf.formula.steps with
    | some p => rw [hfd] at h; simp at h
    | none =>
      rw [hfd] at h
      simp at h
      rw [← h, List.map_map]
      exact h1
  · simp at h; rw [← h]; simp
  · simp at h; rw [← h]; simp

/-- Claim C1: generate_molecule is deterministic — it is a pure function of
the CookedFormula, so identical inputs give byte-identical output — and on
success the bead order is the lexicographically smallest valid topological
order of the predecessor relation: the emitted order is valid and its id
sequence is lexicographically at most that of every valid reordering
(at each step the smallest eligible bead id is chosen). Step/Leg ids are
assumed unique per the data-model invariant. -/
theorem c1_generate_molecule_deterministic (cf : CookedFormula) (mol : Molecule)
    (h1 : (cf.formula.steps.map Step.id).Nodup) (h2 : (cf.formula.legs.map Leg.id).Nodup)
    (hok : generate_molecule cf = .ok mol) :
    generate_molecule cf = generate_molecule cf
    ∧ validExt [] mol.beads = true
    ∧ ∀ alt : List Bead, mol.beads.Perm alt → validExt [] alt = true →
        mol.beads.map Bead.id = alt.map Bead.id
        ∨ List.Lex (· < ·) (mol.beads.map Bead.id) (alt.map Bead.id) := by
  unfold generate_molecule at hok
  cases hb : buildBeads cf with
  | error e => rw [hb] at hok; simp at hok
  | ok beads =>
  rw [hb] at hok
  simp at hok
  cases hts : topoSort beads with
  | error e => rw [hts] at hok; simp at hok
  | ok ordered =>
  rw [hts] at hok
  simp at hok
  have hnd : (([] ++ beads).map Bead.id).Nodup := by simpa using buildBeads_ids h1 h2 hb
  unfold topoSort at hts
  obtain ⟨tail, hout, hperm, hval, hmin⟩ := topoLoop_ok_spec beads.length [] beads ordered hnd hts
  simp at hout
  have hmb : mol.beads = tail := by rw [← hok, hout]
  refine ⟨rfl, ?_, ?_⟩
  · rw [hmb]
    simpa using hval
  · intro alt haltp hvalAlt
    rw [hmb] at haltp ⊢
    exact hmin alt (hperm.trans haltp) (by simpa using hvalAlt)

theorem c1_witness :
    generate_molecule deployCF = generate_molecule deployCF
    ∧ validExt [] deployMol.beads = true
    ∧ ∀ alt : List Bead, deployMol.beads.Perm alt → validExt [] alt = true →
        deployMol.beads.map Bead.id = alt.map Bead.id
        ∨ List.Lex (· < ·) (deployMol.beads.map Bead.id) (alt.map Bead.id) :=
  c1_generate_molecule_deterministic deployCF deployMol (by decide) (by decide) (by decide)

theorem topoLoop_stuck :
    ∀ (fuel : Nat) (done remaining : List Bead) (S : List String),
      ((done ++ remaining).map Bead.id).Nodup →
      S ≠ [] →
      (∀ a ∈ S, a ∈ remaining.map Bead.id) →
      (∀ b2 ∈ remaining, b2.id ∈ S → ∃ p ∈ b2.predecessors, p ∈ S) →
      ∃ ids2, topoLoop fuel done remaining = .error (.cycleDetected ids2)
        ∧ ∀ a ∈ S, a ∈ ids2 := by
  intro fuel
  induction fuel with
  | zero =>
    intro done remaining S hnd hS hsub hcyc
    cases remaining with
    | nil =>
      rcases List.exists_mem_of_ne_nil S hS with ⟨a, ha⟩
      exact absurd (hsub a ha) (by simp)
    | cons r rs => exact ⟨(r :: rs).map Bead.id, rfl, hsub⟩
  | succ n ih =>
    intro done remaining S hnd hS hsub hcyc
    cases remaining with
    | nil =>
      rcases List.exists_mem_of_ne_nil S hS with ⟨a, ha⟩
      exact absurd (hsub a ha) (by simp)
    | cons r rs =>
      unfold topoLoop
      cases hm : minEligible (done.map Bead.id) (r :: rs) with
      | none => exact ⟨(r :: rs).map Bead.id, rfl, hsub⟩
      | some m =>
        obtain ⟨hmem, helig, _⟩ := minEligible_some hm
        have hndapp : (done.map Bead.id ++ (r :: rs).map Bead.id).Nodup := by
          rw [← List.map_append]; exact hnd
        have hndr : ((r :: rs).map Bead.id).Nodup := hndapp.of_append_right
        have hdisj : ∀ x, x ∈ done.map Bead.id → x ∈ (r :: rs).map Bead.id → False := by
          intro x hx1 hx2
          rcases List.nodup_append.mp hndapp with ⟨_, _, hd⟩
          exact hd hx1 hx2
        have hmnot : m.id ∉ S := by
          intro hin
          rcases hcyc m hmem hin with ⟨p, hp, hpS⟩
          have hpdone : p ∈ done.map Bead.id := by
            have := helig
            unfold eligible at this
            rw [List.all_eq_true] at this
            have h2 := this p hp
            simpa using h2
          exact hdisj p hpdone (hsub p hpS)
        have hperm0 : (r :: rs).Perm (m :: eraseId m.id (r :: rs)) := eraseId_perm hndr hmem
        have hpermBig : (done ++ (r :: rs)).Perm ((m :: done) ++ eraseId m.id (r :: rs)) := by
          have h1 : (done ++ (r :: rs)).Perm (done ++ (m :: eraseId m.id (r :: rs))) :=
            List.Perm.append_left done hperm0
          exact h1.trans List.perm_middle
        have hnd2 : (((m :: done) ++ eraseId m.id (r :: rs)).map Bead.id).Nodup :=
          (hpermBig.map Bead.id).nodup_iff.mp hnd
        have hsub2 : ∀ a ∈ S, a ∈ (eraseId m.id (r :: rs)).map Bead.id := by
          intro a ha
          rw [eraseId_map_id]
          have hane : a ≠ m.id := fun hEq => hmnot (hEq ▸ ha)
          exact (List.mem_erase_of_ne hane).mpr (hsub a ha)
        have hcyc2 : ∀ b2 ∈ eraseId m.id (r :: rs), b2.id ∈ S →
            ∃ p ∈ b2.predecessors, p ∈ S := by
          intro b2 hb2 hbS
          exact hcyc b2 (eraseId_subset b2 hb2) hbS
        rcases ih (m :: done) (eraseId m.id (r :: rs)) S hnd2 hS hsub2 hcyc2 with
          ⟨ids2, herr, hids⟩
        exact ⟨ids2, herr, hids⟩

theorem findDangling_none {ids : List String} :
    ∀ {steps : List Step}, (∀ s ∈ steps, ∀ p ∈ s.needs, p ∈ ids) →
      findDangling ids steps = none := by
  intro steps
  induction steps with
  | nil => intro _; rfl
  | cons s rest ih =>
    intro hall
    unfold findDangling
    have hf : s.needs.find? (fun p => !(ids.contains p)) = none := by
      rw [List.find?_eq_none]
      intro p hp
      simp [hall s (by simp) p hp]
    rw [hf]
    exact ih fun s2 hs2 => hall s2 (by simp [hs2])

theorem findDangling_some_of {ids : List String} :
    ∀ {steps : List Step}, (∃ s ∈ steps, ∃ p ∈ s.needs, p ∉ ids) →
      ∃ d, findDangling ids steps = some d ∧ d ∉ ids ∧ ∃ s ∈ steps, d ∈ s.needs := by
  intro steps
  induction steps with
  | nil => rintro ⟨s, hs, _⟩; simp at hs
  | cons s rest ih =>
    rintro ⟨s2, hs2, p, hp, hpn⟩
    cases hf : s.needs.find? (fun q => !(ids.contains q)) with
    | some d =>
      refine ⟨d, by unfold findDangling; rw [hf], ?_, s, by simp, List.mem_of_find?_eq_some hf⟩
      have := List.find?_some hf
      simpa using this
    | none =>
      have hsok : ∀ q ∈ s.needs, q ∈ ids := by
        intro q hq
        have := List.find?_eq_none.mp hf q hq
        simpa using this
      have hs2r : s2 ∈ rest := by
        rcases List.mem_cons.mp hs2 with h | h
        · exact absurd (hsok p (h ▸ hp)) hpn
        · exact h
      rcases ih ⟨s2, hs2r, p, hp, hpn⟩ with ⟨d, hfd, hdn, s3, hs3, hd3⟩
      exact ⟨d, by unfold findDangling; rw [hf]; exact hfd, hdn, s3, by simp [hs3], hd3⟩

/-- Claim C5: for a Workflow, compile yields one bead per Step with
predecessors exactly Step.needs (the successful output is a reordering of
those beads); a needs-id absent from the declared step ids yields
DanglingReference with a genuinely dangling id; and, when no reference
dangles, any cycle in the needs graph (a nonempty set of step ids each
needing another member) yields CycleDetected whose reported ids include
every participant — e.g. A needs B and B needs A reports both A and B. -/
theorem c5_workflow_compile (cf : CookedFormula)
    (hwf : cf.formula.formula_type = .workflow)
    (hnd : (cf.formula.steps.map Step.id).Nodup) :
    (∀ mol, generate_molecule cf = .ok mol →
       mol.beads.Perm (cf.formula.steps.map stepBead)
       ∧ ∀ b2 ∈ mol.beads, ∃ s ∈ cf.formula.steps, b2.id = s.id ∧ b2.predecessors = s.needs)
    ∧ ((∃ s ∈ cf.formula.steps, ∃ p ∈ s.needs, p ∉ cf.formula.steps.map Step.id) →
       ∃ d, generate_molecule cf = .error (.danglingReference d)
         ∧ d ∉ cf.formula.steps.map Step.id ∧ ∃ s ∈ cf.formula.steps, d ∈ s.needs)
    ∧ ((∀ s ∈ cf.formula.steps, ∀ p ∈ s.needs, p ∈ cf.formula.steps.map Step.id) →
       ∀ S : List String, S ≠ [] →
         (∀ a ∈ S, ∃ s ∈ cf.formula.steps, s.id = a ∧ ∃ c ∈ S, c ∈ s.needs) →
         ∃ ids2, generate_molecule cf = .error (.cycleDetected ids2) ∧ ∀ a ∈ S, a ∈ ids2) := by
  refine ⟨?_, ?_, ?_⟩
  · intro mol hok
    unfold generate_molecule buildBeads at hok
    rw [hwf] at hok
    cases hfd : findDangling (cf.formula.steps.map Step.id) cf.formula.steps with
    | some p => rw [hfd] at hok; simp at hok
    | none =>
    rw [hfd] at hok
    simp at hok
    cases hts : topoSort (cf.formula.steps.map stepBead) with
    | error e => rw [hts] at hok; simp at hok
    | ok ordered =>
    rw [hts] at hok
    simp at hok
    have hndb : (([] ++ cf.formula.steps.map stepBead).map Bead.id).Nodup := by
      simpa [List.map_map] using hnd
    unfold topoSort at hts
    obtain ⟨tail, hout, hperm, _, _⟩ :=
      topoLoop_ok_spec (cf.formula.steps.map stepBead).length [] (cf.formula.steps.map stepBead)
        ordered hndb hts
    simp at hout
    have hmb : mol.beads = tail := by rw [← hok, hout]
    constructor
    · rw [hmb]; exact hperm.symm
    · intro b2 hb2
      have : b2 ∈ cf.formula.steps.map stepBead := by
        rw [hmb] at hb2
        exact hperm.mem_iff.mpr hb2
      rcases List.mem_map.mp this with ⟨s, hs, hsb⟩
      exact ⟨s, hs, by rw [← hsb]; rfl, by rw [← hsb]; rfl⟩
  · intro hdang
    rcases findDangling_some_of hdang with ⟨d, hfd, hdn, hs⟩
    refine ⟨d, ?_, hdn, hs⟩
    unfold generate_molecule buildBeads
    rw [hwf, hfd]
  · intro hnodang S hS hScyc
    have hfdnone : findDangling (cf.formula.steps.map Step.id) cf.formula.steps = none :=
      findDangling_none hnodang
    have hndb : (([] ++ cf.formula.steps.map stepBead).map Bead.id).Nodup := by
      simpa [List.map_map] using hnd
    have hids : (cf.formula.steps.map stepBead).map Bead.id = cf.formula.steps.map Step.id := by
      rw [List.map_map]; rfl
    have hsub : ∀ a ∈ S, a ∈ (cf.formula.steps.map stepBead).map Bead.id := by
      intro a ha
      rcases hScyc a ha with ⟨s, hsmem, hsid, _⟩
      rw [hids]
      exact hsid ▸ List.mem_map_of_mem Step.id hsmem
    have hcyc : ∀ b2 ∈ cf.formula.steps.map stepBead, b2.id ∈ S →
        ∃ p ∈ b2.predecessors, p ∈ S := by
      intro b2 hb2 hbS
      rcases List.mem_map.mp hb2 with ⟨s2, hs2, hsb⟩
      rcases hScyc b2.id hbS with ⟨s, hsmem, hsid, c, hcS, hcneeds⟩
      have hseq : s = s2 := by
        apply List.inj_on_of_nodup_map hnd hsmem hs2
        rw [hsid, ← hsb]
        rfl
      refine ⟨c, ?_, hcS⟩
      rw [← hsb]
      show c ∈ s2.needs
      rw [← hseq]
      exact hcneeds
    rcases topoLoop_stuck (cf.formula.steps.map stepBead).length []
        (cf.formula.steps.map stepBead) S hndb hS hsub hcyc with ⟨ids2, herr, hids2⟩
    refine ⟨ids2, ?_, hids2⟩
    unfold generate_molecule buildBeads topoSort
    rw [hwf, hfdnone]
    simp only [herr]

theorem c5_witness :
    ∃ ids2, generate_molecule cycleCF = .error (.cycleDetected ids2)
      ∧ ∀ a ∈ ["A", "B"], a ∈ ids2 :=
  (c5_workflow_compile cycleCF (by decide) (by decide)).2.2 (by decide)
    ["A", "B"] (by decide) (by decide)

theorem foldl_max_mem : ∀ (xs : List Nat) (x : Nat), xs.foldl max x ∈ x :: xs := by
  intro xs
  induction xs with
  | nil => intro x; simp
  | cons y ys ih =>
    intro x
    simp only [List.foldl_cons]
    rcases List.mem_cons.mp (ih (max x y)) with h | h
    · rcases max_choice x y with h2 | h2
      · exact List.mem_cons.mpr (Or.inl (h.trans h2))
      · exact List.mem_cons.mpr (Or.inr (List.mem_cons.mpr (Or.inl (h.trans h2))))
    · exact List.mem_cons.mpr (Or.inr (List.mem_cons.mpr (Or.inr h)))

theorem foldl_max_le : ∀ (xs : List Nat) (x : Nat), ∀ y ∈ x :: xs, y ≤ xs.foldl max x := by
  intro xs
  induction xs with
  | nil => intro x y hy; simp at hy; subst hy; simp
  | cons z zs ih =>
    intro x y hy
    simp only [List.foldl_cons]
    have hmx : max x z ≤ zs.foldl max (max x z) := ih (max x z) (max x z) (by simp)
    rcases List.mem_cons.mp hy with h | h
    · rw [h]; exact le_trans (le_max_left x z) hmx
    · rcases List.mem_cons.mp h with h2 | h2
      · rw [h2]; exact le_trans (le_max_right x z) hmx
      · exact ih (max x z) y (by simp [h2])

theorem prevOrder_mem_max {legs : List Leg} {o po : Nat} (h : prevOrder legs o = some po) :
    po ∈ lowerOrders legs o ∧ ∀ y ∈ lowerOrders legs o, y ≤ po := by
  unfold prevOrder at h
  cases hl : lowerOrders legs o with
  | nil => rw [hl] at h; simp at h
  | cons x xs =>
    rw [hl] at h
    simp at h
    subst h
    exact ⟨hl ▸ foldl_max_mem xs x, fun y hy => foldl_max_le xs x y (hl ▸ hy)⟩

theorem prevOrder_none_iff {legs : List Leg} {o : Nat} :
    prevOrder legs o = none ↔ lowerOrders legs o = [] := by
  unfold prevOrder
  cases hl : lowerOrders legs o <;> simp

theorem lowerOrders_mem {legs : List Leg} {o y : Nat} :
    y ∈ lowerOrders legs o ↔ ∃ l ∈ legs, l.order = some y ∧ y < o := by
  unfold lowerOrders
  rw [List.mem_filterMap]
  constructor
  · rintro ⟨l, hl, hy⟩
    cases ho : l.order with
    | none => rw [ho] at hy; simp at hy
    | some o2 =>
      rw [ho] at hy
      by_cases hlt : o2 < o <;> simp [hlt] at hy
      exact ⟨l, hl, by rw [ho, hy], hy ▸ hlt⟩
  · rintro ⟨l, hl, ho, hlt⟩
    exact ⟨l, hl, by rw [ho]; simp [hlt]⟩

theorem legPreds_none {legs : List Leg} {l : Leg} (h : l.order = none) :
    legPreds legs l = [] := by
  unfold legPreds; rw [h]

theorem legPreds_mem {legs : List Leg} {l : Leg} {x : String} :
    x ∈ legPreds legs l ↔ ∃ o po, l.order = some o ∧ po ∈ lowerOrders legs o
      ∧ (∀ y ∈ lowerOrders legs o, y ≤ po) ∧ ∃ l2 ∈ legs, l2.order = some po ∧ x = l2.id := by
  unfold legPreds
  cases ho : l.order with
  | none =>
    simp only [List.not_mem_nil, false_iff]
    rintro ⟨o, po, ho2, _⟩
    simp at ho2
  | some o =>
    cases hp : prevOrder legs o with
    | none =>
      simp only [hp]
      simp only [List.not_mem_nil, false_iff]
      rintro ⟨o2, po, ho2, hpo, _⟩
      rw [Option.some.injEq] at ho2
      subst ho2
      rw [prevOrder_none_iff.mp hp] at hpo
      simp at hpo
    | some po =>
      simp only [hp]
      constructor
      · intro hx
        rcases List.mem_map.mp hx with ⟨l2, hl2f, hid⟩
        have hl2 := List.mem_filter.mp hl2f
        refine ⟨o, po, rfl, (prevOrder_mem_max hp).1, (prevOrder_mem_max hp).2,
          l2, hl2.1, ?_, hid.symm⟩
        have h2 := hl2.2
        exact beq_iff_eq.mp h2
      · rintro ⟨o2, po2, ho2, hpo2mem, hpo2max, l2, hl2, hl2o, hx⟩
        rw [Option.some.injEq] at ho2
        subst ho2
        have hpo2 : po2 = po := by
          have h1 := prevOrder_mem_max hp
          exact le_antisymm (h1.2 po2 hpo2mem) (hpo2max po h1.1)
        subst hpo2
        rw [hx]
        exact List.mem_map_of_mem Leg.id (List.mem_filter.mpr ⟨hl2, beq_iff_eq.mpr hl2o⟩)

theorem exists_min_rank (rank : String → Nat) :
    ∀ l : List Bead, l ≠ [] → ∃ b ∈ l, ∀ c ∈ l, rank b.id ≤ rank c.id := by
  intro l
  induction l with
  | nil => intro h; simp at h
  | cons r rs ih =>
    intro _
    by_cases hrs : rs = []
    · subst hrs
      refine ⟨r, by simp, ?_⟩
      intro c hc
      simp at hc
      rw [hc]
    · obtain ⟨b, hb, hmin⟩ := ih hrs
      by_cases hcmp : rank r.id ≤ rank b.id
      · refine ⟨r, by simp, ?_⟩
        intro c hc
        rcases List.mem_cons.mp hc with h | h
        · rw [h]
        · exact le_trans hcmp (hmin c h)
      · refine ⟨b, by simp [hb], ?_⟩
        intro c hc
        rcases List.mem_cons.mp hc with h | h
        · rw [h]; exact le_of_lt (lt_of_not_le hcmp)
        · exact hmin c h

theorem legPreds_same_order {legs : List Leg} (hnd : (legs.map Leg.id).Nodup) :
    ∀ l1 ∈ legs, ∀ l2 ∈ legs, l1.order = l2.order → l1.id ∉ legPreds legs l2 := by
  intro l1 h1 l2 h2 ho hx
  rcases legPreds_mem.mp hx with ⟨o, po, ho2, hpomem, _, l3, hl3, hl3o, hid⟩
  have hl31 : l3 = l1 := List.inj_on_of_nodup_map hnd hl3 h1 hid.symm
  subst hl31
  rcases lowerOrders_mem.mp hpomem with ⟨_, _, _, hlt⟩
  rw [ho, ho2] at hl3o
  rw [Option.some.injEq] at hl3o
  omega

theorem topoLoop_total :
    ∀ (fuel : Nat) (done remaining : List Bead) (rank : String → Nat),
      remaining.length ≤ fuel →
      ((done ++ remaining).map Bead.id).Nodup →
      (∀ b2 ∈ remaining, ∀ p ∈ b2.predecessors,
         rank p < rank b2.id ∧ p ∈ (done ++ remaining).map Bead.id) →
      ∃ out, topoLoop fuel done remaining = .ok out := by
  intro fuel
  induction fuel with
  | zero =>
    intro done remaining rank hlen hnd hcond
    cases remaining with
    | nil => exact ⟨done.reverse, topoLoop_nil 0 done⟩
    | cons r rs => simp at hlen
  | succ n ih =>
    intro done remaining rank hlen hnd hcond
    cases remaining with
    | nil => exact ⟨done.reverse, topoLoop_nil _ done⟩
    | cons r rs =>
      obtain ⟨bstar, hbmem, hbmin⟩ := exists_min_rank rank (r :: rs) (by simp)
      have heligb : eligible (done.map Bead.id) bstar = true := by
        unfold eligible
        rw [List.all_eq_true]
        intro p hp
        obtain ⟨hrank, hmem2⟩ := hcond bstar hbmem p hp
        rw [List.map_append, List.mem_append] at hmem2
        rcases hmem2 with h | h
        · simpa using h
        · exfalso
          rcases List.mem_map.mp h with ⟨c, hc, hcid⟩
          have hge := hbmin c hc
          rw [hcid] at hge
          omega
      cases hm : minEligible (done.map Bead.id) (r :: rs) with
      | none => exact absurd heligb (by simp [minEligible_none hm bstar hbmem])
      | some m =>
        obtain ⟨hmem, helig, _⟩ := minEligible_some hm
        have hndapp : (done.map Bead.id ++ (r :: rs).map Bead.id).Nodup := by
          rw [← List.map_append]; exact hnd
        have hndr : ((r :: rs).map Bead.id).Nodup := hndapp.of_append_right
        have hperm0 : (r :: rs).Perm (m :: eraseId m.id (r :: rs)) := eraseId_perm hndr hmem
        have hpermBig : (done ++ (r :: rs)).Perm ((m :: done) ++ eraseId m.id (r :: rs)) := by
          have h1 : (done ++ (r :: rs)).Perm (done ++ (m :: eraseId m.id (r :: rs))) :=
            List.Perm.append_left done hperm0
          exact h1.trans List.perm_middle
        have hnd2 : (((m :: done) ++ eraseId m.id (r :: rs)).map Bead.id).Nodup :=
          (hpermBig.map Bead.id).nodup_iff.mp hnd
        have hlen2 : (eraseId m.id (r :: rs)).length ≤ n := by
          have hleq := hperm0.length_eq
          simp at hleq
          simp at hlen
          omega
        have hcond2 : ∀ b2 ∈ eraseId m.id (r :: rs), ∀ p ∈ b2.predecessors,
            rank p < rank b2.id ∧ p ∈ ((m :: done) ++ eraseId m.id (r :: rs)).map Bead.id := by
          intro b2 hb2 p hp
          obtain ⟨hr1, hr2⟩ := hcond b2 (eraseId_subset b2 hb2) p hp
          exact ⟨hr1, (hpermBig.map Bead.id).mem_iff.mp hr2⟩
        obtain ⟨out, hout⟩ := ih (m :: done) (eraseId m.id (r :: rs)) rank hlen2 hnd2 hcond2
        refine ⟨out, ?_⟩
        unfold topoLoop
        rw [hm]
        exact hout

theorem find_leg_id : ∀ {legs : List Leg}, (legs.map Leg.id).Nodup →
    ∀ l2 ∈ legs, legs.find? (fun l3 => l3.id == l2.id) = some l2 := by
  intro legs
  induction legs with
  | nil => intro _ l2 h; simp at h
  | cons l rest ih =>
    intro hnd l2 hmem
    simp only [List.map_cons, List.nodup_cons] at hnd
    rcases List.mem_cons.mp hmem with h | h
    · subst h
      rw [List.find?_cons_of_pos]
      simp
    · have hne : (l.id == l2.id) = false := by
        simp only [beq_eq_false_iff_ne]
        intro hEq
        exact hnd.1 (hEq ▸ List.mem_map_of_mem Leg.id h)
      simp only [List.find?_cons, hne]
      exact ih hnd.2 l2 h

theorem rankOf_leg {legs : List Leg} (hnd : (legs.map Leg.id).Nodup) {l : Leg} (hl : l ∈ legs) :
    rankOf legs l.id = (match l.order with | none => 0 | some o => o + 1) := by
  unfold rankOf
  rw [find_leg_id hnd l hl]

/-- Claim C6: for a Convoy, compile always succeeds and produces one bead
per Leg; a bead's predecessors are exactly the ids of the legs at the
next-lower order value present in the formula (largest present order below
the leg's own order); legs sharing an order value are never predecessors of
one another; and a leg lacking `order` has no predecessors. Leg ids are
assumed unique per the data-model invariant. -/
theorem c6_convoy_compile (cf : CookedFormula)
    (hcv : cf.formula.formula_type = .convoy)
    (hnd : (cf.formula.legs.map Leg.id).Nodup) :
    (∃ mol, generate_molecule cf = .ok mol)
    ∧ (∀ mol, generate_molecule cf = .ok mol →
        mol.beads.Perm (cf.formula.legs.map (legBead cf.formula.legs))
        ∧ (∀ b2 ∈ mol.beads, ∃ l ∈ cf.formula.legs, b2.id = l.id
            ∧ b2.predecessors = legPreds cf.formula.legs l)
        ∧ (∀ l ∈ cf.formula.legs, l.order = none → legPreds cf.formula.legs l = [])
        ∧ (∀ l1 ∈ cf.formula.legs, ∀ l2 ∈ cf.formula.legs, l1.order = l2.order →
            l1.id ∉ legPreds cf.formula.legs l2)
        ∧ (∀ l ∈ cf.formula.legs, ∀ x : String, x ∈ legPreds cf.formula.legs l ↔
            ∃ o po, l.order = some o ∧ po ∈ lowerOrders cf.formula.legs o
              ∧ (∀ y ∈ lowerOrders cf.formula.legs o, y ≤ po)
              ∧ ∃ l2 ∈ cf.formula.legs, l2.order = some po ∧ x = l2.id)) := by
  have hids : (cf.formula.legs.map (legBead cf.formula.legs)).map Bead.id
      = cf.formula.legs.map Leg.id := by
    rw [List.map_map]; rfl
  have hndb : (([] ++ cf.formula.legs.map (legBead cf.formula.legs)).map Bead.id).Nodup := by
    rw [List.nil_append, hids]; exact hnd
  constructor
  · have hcond : ∀ b2 ∈ cf.formula.legs.map (legBead cf.formula.legs),
        ∀ p ∈ b2.predecessors, rankOf cf.formula.legs p < rankOf cf.formula.legs b2.id
          ∧ p ∈ (([] : List Bead) ++ cf.formula.legs.map (legBead cf.formula.legs)).map Bead.id := by
      intro b2 hb2 p hp
      rcases List.mem_map.mp hb2 with ⟨l, hl, hlb⟩
      have hpreds : b2.predecessors = legPreds cf.formula.legs l := by rw [← hlb]; rfl
      rw [hpreds] at hp
      rcases legPreds_mem.mp hp with ⟨o, po, hlo, hpomem, _, l2, hl2, hl2o, hpid⟩
      constructor
      · have hr1 : rankOf cf.formula.legs p = po + 1 := by
          rw [hpid, rankOf_leg hnd hl2, hl2o]
        have hr2 : rankOf cf.formula.legs b2.id = o + 1 := by
          have : b2.id = l.id := by rw [← hlb]; rfl
          rw [this, rankOf_leg hnd hl, hlo]
        rcases lowerOrders_mem.mp hpomem with ⟨_, _, _, hlt⟩
        omega
      · rw [List.nil_append, hids, hpid]
        exact List.mem_map_of_mem Leg.id hl2
    obtain ⟨out, hout⟩ := topoLoop_total (cf.formula.legs.map (legBead cf.formula.legs)).length
      [] (cf.formula.legs.map (legBead cf.formula.legs)) (rankOf cf.formula.legs)
      (le_refl _) hndb hcond
    refine ⟨{ beads := out }, ?_⟩
    unfold generate_molecule buildBeads topoSort
    rw [hcv]
    simp only [hout]
  · intro mol hok
    unfold generate_molecule buildBeads at hok
    rw [hcv] at hok
    simp at hok
    cases hts : topoSort (cf.formula.legs.map (legBead cf.formula.legs)) with
    | error e => rw [hts] at hok; simp at hok
    | ok ordered =>
    rw [hts] at hok
    simp at hok
    unfold topoSort at hts
    obtain ⟨tail, hout, hperm, _, _⟩ :=
      topoLoop_ok_spec (cf.formula.legs.map (legBead cf.formula.legs)).length []
        (cf.formula.legs.map (legBead cf.formula.legs)) ordered hndb hts
    simp at hout
    have hmb : mol.beads = tail := by rw [← hok, hout]
    refine ⟨by rw [hmb]; exact hperm.symm, ?_, ?_, legPreds_same_order hnd, ?_⟩
    · intro b2 hb2
      have hmem : b2 ∈ cf.formula.legs.map (legBead cf.formula.legs) := by
        rw [hmb] at hb2
        exact hperm.mem_iff.mpr hb2
      rcases List.mem_map.mp hmem with ⟨l, hl, hlb⟩
      exact ⟨l, hl, by rw [← hlb]; rfl, by rw [← hlb]; rfl⟩
    · intro l _ ho
      exact legPreds_none ho
    · intro l _ x
      exact legPreds_mem

theorem c6_witness :
    (∃ mol, generate_molecule convoyCF = .ok mol)
    ∧ ∀ b2 ∈ convoyMol.beads, ∃ l ∈ convoyCF.formula.legs, b2.id = l.id
        ∧ b2.predecessors = legPreds convoyCF.formula.legs l :=
  ⟨(c6_convoy_compile convoyCF (by decide) (by decide)).1,
   ((c6_convoy_compile convoyCF (by decide) (by decide)).2 convoyMol (by decide)).2.1⟩

theorem mapExcept_ok_of {α β ε : Type} {g : α → Except ε β} {gD : α → β} :
    ∀ {l : List α}, (∀ x ∈ l, g x = .ok (gD x)) → mapExcept g l = .ok (l.map gD) := by
  intro l
  induction l with
  | nil => intro _; rfl
  | cons x rest ih =>
    intro hall
    unfold mapExcept
    rw [hall x (by simp), ih (fun y hy => hall y (by simp [hy]))]
    simp

theorem mapExcept_ok_each {α β ε : Type} {g : α → Except ε β} :
    ∀ {l : List α} {out : List β}, mapExcept g l = .ok out → ∀ x ∈ l, ∃ y, g x = .ok y := by
  intro l
  induction l with
  | nil => intro out _ x hx; simp at hx
  | cons z rest ih =>
    intro out h x hx
    unfold mapExcept at h
    cases hz : g z with
    | error e => rw [hz] at h; simp at h
    | ok y =>
      rw [hz] at h
      cases hr : mapExcept g rest with
      | error e => rw [hr] at h; simp at h
      | ok out2 =>
        rcases List.mem_cons.mp hx with hh | hh
        · exact ⟨y, hh ▸ hz⟩
        · exact ih hr x hh

theorem mapExcept_ok_val {α β ε : Type} {g : α → Except ε β} {gD : α → β}
    {l : List α} {out : List β} (h : mapExcept g l = .ok out)
    (hall : ∀ x ∈ l, g x = .ok (gD x)) : out = l.map gD := by
  have h2 := mapExcept_ok_of hall
  rw [h] at h2
  exact Except.ok.inj h2

theorem decodeStep_ok_of {r : RawStep}
    (h : (r.id.isSome && r.title.isSome && r.description.isSome) = true) :
    decodeStep r = .ok (decodeStepD r) := by
  simp only [Bool.and_eq_true, Option.isSome_iff_exists] at h
  obtain ⟨⟨⟨i, hi⟩, t, ht⟩, d, hd⟩ := h
  unfold decodeStep decodeStepD
  rw [hi, ht, hd]
  simp

theorem decodeStep_ok_inv {r : RawStep} {s : Step} (h : decodeStep r = .ok s) :
    (r.id.isSome && r.title.isSome && r.description.isSome) = true ∧ s = decodeStepD r := by
  unfold decodeStep at h
  cases hi : r.id <;> cases ht : r.title <;> cases hd : r.description <;>
    rw [hi, ht, hd] at h <;> simp at h
  unfold decodeStepD
  rw [hi, ht, hd]
  simp [← h]

theorem decodeLeg_ok_of {r : RawLeg}
    (h : (r.id.isSome && r.title.isSome && r.focus.isSome && r.description.isSome) = true) :
    decodeLeg r = .ok (decodeLegD r) := by
  simp only [Bool.and_eq_true, Option.isSome_iff_exists] at h
  obtain ⟨⟨⟨⟨i, hi⟩, t, ht⟩, fo, hf⟩, d, hd⟩ := h
  unfold decodeLeg decodeLegD
  rw [hi, ht, hf, hd]
  simp

theorem decodeLeg_ok_inv {r : RawLeg} {s : Leg} (h : decodeLeg r = .ok s) :
    (r.id.isSome && r.title.isSome && r.focus.isSome && r.description.isSome) = true
      ∧ s = decodeLegD r := by
  unfold decodeLeg at h
  cases hi : r.id <;> cases ht : r.title <;> cases hf : r.focus <;> cases hd : r.description <;>
    rw [hi, ht, hf, hd] at h <;> simp at h
  unfold decodeLegD
  rw [hi, ht, hf, hd]
  simp [← h]

theorem decodeVar_ok_of {r : RawVar} (h : r.name.isSome = true) :
    decodeVar r = .ok (decodeVarD r) := by
  rw [Option.isSome_iff_exists] at h
  obtain ⟨n, hn⟩ := h
  unfold decodeVar decodeVarD
  rw [hn]
  simp

theorem decodeVar_ok_inv {r : RawVar} {v : Var} (h : decodeVar r = .ok v) :
    r.name.isSome = true ∧ v = decodeVarD r := by
  unfold decodeVar at h
  cases hn : r.name <;> rw [hn] at h <;> simp at h
  unfold decodeVarD
  rw [hn]
  simp [← h]

theorem decodeSynthesis_ok_of {r : RawSynthesis} (h : r.strategy.isSome = true) :
    decodeSynthesis r = .ok (decodeSynthesisD r) := by
  rw [Option.isSome_iff_exists] at h
  obtain ⟨st, hs⟩ := h
  unfold decodeSynthesis decodeSynthesisD
  rw [hs]
  simp

theorem decodeSynthesis_ok_inv {r : RawSynthesis} {s : Synthesis}
    (h : decodeSynthesis r = .ok s) : r.strategy.isSome = true ∧ s = decodeSynthesisD r := by
  unfold decodeSynthesis at h
  cases hs : r.strategy <;> rw [hs] at h <;> simp at h
  unfold decodeSynthesisD
  rw [hs]
  simp [← h]

theorem decodeFormulaType_ok_iff {t : String} :
    (t == "convoy" || t == "workflow" || t == "expansion" || t == "aspect") = true
      ↔ ∃ ft, decodeFormulaType t = .ok ft := by
  unfold decodeFormulaType
  by_cases h1 : t = "convoy" <;> simp [h1] <;>
    by_cases h2 : t = "workflow" <;> simp [h2] <;>
      by_cases h3 : t = "expansion" <;> simp [h3] <;>
        by_cases h4 : t = "aspect" <;> simp [h4]

theorem decodeVersion_ok_iff {v : Option Int} :
    (match v with
     | none => true
     | some k => decide (0 ≤ k) && decide (k < 2 ^ 32)) = true
      ↔ ∃ n, decodeVersion v = .ok n := by
  cases v with
  | none => simp [decodeVersion]
  | some k =>
    show (decide (0 ≤ k) && decide (k < 2 ^ 32)) = true ↔ _
    have hred : decodeVersion (some k)
        = (if 0 ≤ k ∧ k < 2 ^ 32 then Except.ok k.toNat
           else Except.error (ParseError.schemaError "version" "out of range")) := rfl
    rw [hred]
    by_cases h : 0 ≤ k ∧ k < 2 ^ 32
    · rw [if_pos h]
      constructor
      · intro _
        exact ⟨k.toNat, rfl⟩
      · intro _
        simp only [Bool.and_eq_true, decide_eq_true_eq]
        exact h
    · rw [if_neg h]
      constructor
      · intro hcon
        simp only [Bool.and_eq_true, decide_eq_true_eq] at hcon
        exact absurd hcon h
      · rintro ⟨n, hn⟩
        simp at hn

theorem checkFormula_ok_iff {f : Formula} :
    checkFormula f = .ok () ↔
      ¬(f.name = "") ∧ ¬(f.description = "")
      ∧ (varList f).any (fun v => v.enum_values == some []) = false
      ∧ allDistinct (f.steps.map Step.id) = true
      ∧ f.steps.any (fun s => s.id == "") = false
      ∧ allDistinct (f.legs.map Leg.id) = true
      ∧ f.legs.any (fun l => l.id == "") = false
      ∧ f.steps.any (fun s => s.needs.contains s.id) = false := by
  constructor
  · intro h
    unfold checkFormula at h
    repeat any_goals split at h
    any_goals exact Except.noConfusion h
    refine ⟨by assumption, by assumption, ?_, ?_, ?_, ?_, ?_, ?_⟩
    · cases hB : (varList f).any (fun v => v.enum_values == some []) with
      | false => rfl
      | true => exact absurd hB (by assumption)
    · cases hB : allDistinct (f.steps.map Step.id) with
      | true => rfl
      | false =>
        exact absurd (by simp [hB] : (!allDistinct (f.steps.map Step.id)) = true) (by assumption)
    · cases hB : f.steps.any (fun s => s.id == "") with
      | false => rfl
      | true => exact absurd hB (by assumption)
    · cases hB : allDistinct (f.legs.map Leg.id) with
      | true => rfl
      | false =>
        exact absurd (by simp [hB] : (!allDistinct (f.legs.map Leg.id)) = true) (by assumption)
    · cases hB : f.legs.any (fun l => l.id == "") with
      | false => rfl
      | true => exact absurd hB (by assumption)
    · cases hB : f.steps.any (fun s => s.needs.contains s.id) with
      | false => rfl
      | true => exact absurd hB (by assumption)
  · rintro ⟨h1, h2, h3, h4, h5, h6, h7, h8⟩
    unfold checkFormula
    rw [if_neg h1, if_neg h2, if_neg (by rw [h3]; simp), if_neg (by rw [h4]; simp),
        if_neg (by rw [h5]; simp), if_neg (by rw [h6]; simp), if_neg (by rw [h7]; simp),
        if_neg (by rw [h8]; simp)]

theorem decodeFormula_ok_parts {r : RawFormula} {f : Formula} (h : decodeFormula r = .ok f) :
    r.name = some f.name ∧ r.description = some f.description
    ∧ (∃ ty, r.ftype = some ty ∧ decodeFormulaType ty = .ok f.formula_type)
    ∧ decodeVersion r.version = .ok f.version
    ∧ mapExcept decodeLeg (r.legs.getD []) = .ok f.legs
    ∧ mapExcept decodeStep (r.steps.getD []) = .ok f.steps
    ∧ mapExcept (fun p => match decodeVar p.2 with
        | Except.error e => Except.error e
        | Except.ok v => Except.ok (p.1, v)) (r.vars.getD []) = .ok f.vars
    ∧ synDecode r.synthesis = .ok f.synthesis := by
  unfold decodeFormula at h
  repeat any_goals split at h
  any_goals exact Except.noConfusion h
  injection h with h
  subst h
  exact ⟨by assumption, by assumption, ⟨_, by assumption, by assumption⟩, by assumption,
    by assumption, by assumption, by assumption, by assumption⟩

theorem decodeFormula_ok_of {r : RawFormula} {nm de ty : String} {ft : FormulaType}
    {ver : Nat} {legs2 : List Leg} {steps2 : List Step} {vars2 : List (String × Var)}
    {syn2 : Option Synthesis}
    (hn : r.name = some nm) (hd : r.description = some de) (ht : r.ftype = some ty)
    (hft : decodeFormulaType ty = .ok ft) (hv : decodeVersion r.version = .ok ver)
    (hl : mapExcept decodeLeg (r.legs.getD []) = .ok legs2)
    (hs : mapExcept decodeStep (r.steps.getD []) = .ok steps2)
    (hvr : mapExcept (fun p => match decodeVar p.2 with
            | Except.error e => Except.error e
            | Except.ok v => Except.ok (p.1, v)) (r.vars.getD []) = .ok vars2)
    (hsy : synDecode r.synthesis = .ok syn2) :
    decodeFormula r = .ok { name := nm, description := de, formula_type := ft, version := ver,
                            legs := legs2, synthesis := syn2, steps := steps2, vars := vars2 } := by
  unfold decodeFormula
  rw [hn, hd, ht]
  simp only [hft, hv, hl, hs, hvr, hsy]

theorem parse_ok_check {r : RawFormula} {f : Formula} (h : parse_formula_impl r = .ok f) :
    checkFormula f = .ok () := by
  unfold parse_formula_impl at h
  cases hd : decodeFormula r with
  | error e => simp [hd] at h
  | ok g =>
    simp only [hd] at h
    cases hc : checkFormula g with
    | error e => rw [hc] at h; simp at h
    | ok u =>
      cases u
      rw [hc] at h
      simp at h
      rw [← h]
      exact hc

theorem parse_ok_of {r : RawFormula} {f : Formula} (hd : decodeFormula r = .ok f)
    (hc : checkFormula f = .ok ()) : parse_formula_impl r = .ok f := by
  unfold parse_formula_impl
  rw [hd]
  show (match checkFormula f with
        | Except.error e => Except.error e
        | Except.ok _ => Except.ok f) = Except.ok f
  rw [hc]

theorem varPair_ok_of {p : String × RawVar} (h : p.2.name.isSome = true) :
    (match decodeVar p.2 with
     | Except.error e => Except.error e
     | Except.ok v => Except.ok (p.1, v)) = .ok (p.1, decodeVarD p.2) := by
  rw [decodeVar_ok_of h]

theorem varPair_ok_inv {p : String × RawVar} {y : String × Var}
    (h : (match decodeVar p.2 with
          | Except.error e => Except.error e
          | Except.ok v => Except.ok (p.1, v)) = .ok y) :
    p.2.name.isSome = true ∧ y = (p.1, decodeVarD p.2) := by
  cases hv : decodeVar p.2 with
  | error e => rw [hv] at h; simp at h
  | ok v =>
    rw [hv] at h
    simp at h
    obtain ⟨h1, h2⟩ := decodeVar_ok_inv hv
    exact ⟨h1, by rw [← h, h2]⟩

theorem synPart_ok_of {s : Option RawSynthesis} (h : synCheck s = true) :
    synDecode s = .ok (synDecodeD s) := by
  cases s with
  | none => rfl
  | some rs =>
    show (match decodeSynthesis rs with
          | Except.error e => Except.error e
          | Except.ok sy => Except.ok (some sy)) = .ok (some (decodeSynthesisD rs))
    rw [decodeSynthesis_ok_of (by simpa [synCheck] using h)]

theorem synPart_ok_inv {s : Option RawSynthesis} {out : Option Synthesis}
    (h : synDecode s = .ok out) : synCheck s = true := by
  cases s with
  | none => rfl
  | some rs =>
    show rs.strategy.isSome = true
    simp only [synDecode] at h
    cases hd : decodeSynthesis rs with
    | error e => rw [hd] at h; simp at h
    | ok sy => exact (decodeSynthesis_ok_inv hd).1

/-- Claim C7: validate_formula returns true exactly when parse_formula
succeeds — validation runs the same deserialization and schema checks as
parsing and only omits building usable output. -/
theorem c7_validate_iff_parse (r : RawFormula) :
    validate_formula_impl r = true ↔ ∃ f, parse_formula_impl r = .ok f := by
  constructor
  · intro hv
    unfold validate_formula_impl at hv
    simp only [Bool.and_eq_true] at hv
    obtain ⟨hv, hselfneed⟩ := hv
    obtain ⟨hv, hlegNe⟩ := hv
    obtain ⟨hv, hlegDist⟩ := hv
    obtain ⟨hv, hstepNe⟩ := hv
    obtain ⟨hv, hstepDist⟩ := hv
    obtain ⟨hv, henum⟩ := hv
    obtain ⟨hv, hdescNe⟩ := hv
    obtain ⟨hv, hnameNe⟩ := hv
    obtain ⟨hv, hsyn⟩ := hv
    obtain ⟨hv, hvars⟩ := hv
    obtain ⟨hv, hsteps⟩ := hv
    obtain ⟨hv, hlegs⟩ := hv
    obtain ⟨hv, hver⟩ := hv
    obtain ⟨hv, htype⟩ := hv
    obtain ⟨hname, hdesc⟩ := hv
    obtain ⟨nm, hn⟩ := Option.isSome_iff_exists.mp hname
    obtain ⟨de, hd2⟩ := Option.isSome_iff_exists.mp hdesc
    cases hty2 : r.ftype with
    | none => rw [hty2] at htype; simp at htype
    | some ty =>
    rw [hty2] at htype
    have htype2 : (ty == "convoy" || ty == "workflow" || ty == "expansion"
        || ty == "aspect") = true := htype
    obtain ⟨ft, hft⟩ := decodeFormulaType_ok_iff.mp htype2
    obtain ⟨ver, hver2⟩ := decodeVersion_ok_iff.mp hver
    have hl2 : mapExcept decodeLeg (r.legs.getD []) = .ok ((r.legs.getD []).map decodeLegD) :=
      mapExcept_ok_of (fun l hl => decodeLeg_ok_of (List.all_eq_true.mp hlegs l hl))
    have hs2 : mapExcept decodeStep (r.steps.getD []) = .ok ((r.steps.getD []).map decodeStepD) :=
      mapExcept_ok_of (fun s hs => decodeStep_ok_of (List.all_eq_true.mp hsteps s hs))
    have hv2 : mapExcept (fun p => match decodeVar p.2 with
          | Except.error e => Except.error e
          | Except.ok v => Except.ok (p.1, v)) (r.vars.getD [])
        = .ok ((r.vars.getD []).map (fun p => (p.1, decodeVarD p.2))) :=
      mapExcept_ok_of (fun p hp => varPair_ok_of (List.all_eq_true.mp hvars p hp))
    have hsy2 := synPart_ok_of hsyn
    have hdec := decodeFormula_ok_of hn hd2 hty2 hft hver2 hl2 hs2 hv2 hsy2
    obtain ⟨f, hfdef⟩ : ∃ f : Formula, f =
        { name := nm, description := de,
          formula_type := ft, version := ver,
          legs := (r.legs.getD []).map decodeLegD,
          synthesis := synDecodeD r.synthesis,
          steps := (r.steps.getD []).map decodeStepD,
          vars := (r.vars.getD []).map (fun p => (p.1, decodeVarD p.2)) } := ⟨_, rfl⟩
    have hdecf : decodeFormula r = .ok f := by rw [hfdef]; exact hdec
    have hchk : checkFormula f = .ok () := by
      apply checkFormula_ok_iff.mpr
      refine ⟨?_, ?_, ?_, ?_, ?_, ?_, ?_, ?_⟩
      · rw [hfdef]
        rw [hn] at hnameNe
        simpa using hnameNe
      · rw [hfdef]
        rw [hd2] at hdescNe
        simpa using hdescNe
      · cases hB : (varList f).any (fun v => v.enum_values == some []) with
        | false => rfl
        | true =>
          exfalso
          rcases List.any_eq_true.mp hB with ⟨v, hvmem, hvpred⟩
          unfold varList at hvmem
          rw [hfdef] at hvmem
          simp only [List.map_map] at hvmem
          rcases List.mem_map.mp hvmem with ⟨p, hp, hpEq⟩
          have hany : (r.vars.getD []).any (fun q => q.2.enum_values == some []) = true :=
            List.any_eq_true.mpr ⟨p, hp, by rw [← hpEq] at hvpred; exact hvpred⟩
          rw [hany] at henum
          exact absurd henum (by simp)
      · rw [hfdef]
        simp only [List.map_map]
        exact hstepDist
      · cases hB : f.steps.any (fun s => s.id == "") with
        | false => rfl
        | true =>
          exfalso
          rcases List.any_eq_true.mp hB with ⟨s, hsmem, hspred⟩
          rw [hfdef] at hsmem
          rcases List.mem_map.mp hsmem with ⟨y, hy, hyEq⟩
          have hraw : (y.id.getD "" != "") = true := List.all_eq_true.mp hstepNe y hy
          have hbeq : (y.id.getD "" == "") = true := by rw [← hyEq] at hspred; exact hspred
          rw [beq_iff_eq] at hbeq
          rw [hbeq] at hraw
          exact absurd hraw (by simp)
      · rw [hfdef]
        simp only [List.map_map]
        exact hlegDist
      · cases hB : f.legs.any (fun l => l.id == "") with
        | false => rfl
        | true =>
          exfalso
          rcases List.any_eq_true.mp hB with ⟨l, hlmem, hlpred⟩
          rw [hfdef] at hlmem
          rcases List.mem_map.mp hlmem with ⟨y, hy, hyEq⟩
          have hraw : (y.id.getD "" != "") = true := List.all_eq_true.mp hlegNe y hy
          have hbeq : (y.id.getD "" == "") = true := by rw [← hyEq] at hlpred; exact hlpred
          rw [beq_iff_eq] at hbeq
          rw [hbeq] at hraw
          exact absurd hraw (by simp)
      · cases hB : f.steps.any (fun s => s.needs.contains s.id) with
        | false => rfl
        | true =>
          exfalso
          rcases List.any_eq_true.mp hB with ⟨s, hsmem, hspred⟩
          rw [hfdef] at hsmem
          rcases List.mem_map.mp hsmem with ⟨y, hy, hyEq⟩
          have hany : ((r.steps.getD []).any
              (fun s2 => (s2.needs.getD []).contains (s2.id.getD ""))) = true :=
            List.any_eq_true.mpr ⟨y, hy, by rw [← hyEq] at hspred; exact hspred⟩
          rw [hany] at hselfneed
          exact absurd hselfneed (by simp)
    exact ⟨f, parse_ok_of hdecf hchk⟩
  · rintro ⟨f, hok⟩
    have hdec := parse_ok_decode hok
    have hchk := parse_ok_check hok
    obtain ⟨hn, hd2, ⟨ty, hty, hft⟩, hver, hlegs, hsteps, hvars, hsyn⟩ :=
      decodeFormula_ok_parts hdec
    obtain ⟨c1, c2, c3, c4, c5, c6, c7, c8⟩ := checkFormula_ok_iff.mp hchk
    have hlegsAll : ∀ l ∈ r.legs.getD [], decodeLeg l = .ok (decodeLegD l) := by
      intro l hl
      obtain ⟨y, hy⟩ := mapExcept_ok_each hlegs l hl
      rw [(decodeLeg_ok_inv hy).2] at hy
      exact hy
    have hstepsAll : ∀ s ∈ r.steps.getD [], decodeStep s = .ok (decodeStepD s) := by
      intro s hs
      obtain ⟨y, hy⟩ := mapExcept_ok_each hsteps s hs
      rw [(decodeStep_ok_inv hy).2] at hy
      exact hy
    have hvarsAll : ∀ p ∈ r.vars.getD [], (match decodeVar p.2 with
        | Except.error e => Except.error e
        | Except.ok v => Except.ok (p.1, v)) = .ok (p.1, decodeVarD p.2) := by
      intro p hp
      obtain ⟨y, hy⟩ := mapExcept_ok_each hvars p hp
      rw [(varPair_ok_inv hy).2] at hy
      exact hy
    have hfl : f.legs = (r.legs.getD []).map decodeLegD := mapExcept_ok_val hlegs hlegsAll
    have hfs : f.steps = (r.steps.getD []).map decodeStepD := mapExcept_ok_val hsteps hstepsAll
    have hfv : f.vars = (r.vars.getD []).map (fun p => (p.1, decodeVarD p.2)) :=
      mapExcept_ok_val hvars hvarsAll
    unfold validate_formula_impl
    simp only [Bool.and_eq_true]
    refine ⟨⟨⟨⟨⟨⟨⟨⟨⟨⟨⟨⟨⟨⟨⟨?_, ?_⟩, ?_⟩, ?_⟩, ?_⟩, ?_⟩, ?_⟩, ?_⟩, ?_⟩, ?_⟩, ?_⟩, ?_⟩, ?_⟩,
      ?_⟩, ?_⟩, ?_⟩
    · rw [hn]; rfl
    · rw [hd2]; rfl
    · rw [hty]
      exact decodeFormulaType_ok_iff.mpr ⟨f.formula_type, hft⟩
    · exact decodeVersion_ok_iff.mpr ⟨f.version, hver⟩
    · rw [List.all_eq_true]
      intro l hl
      exact (decodeLeg_ok_inv (hlegsAll l hl)).1
    · rw [List.all_eq_true]
      intro s hs
      exact (decodeStep_ok_inv (hstepsAll s hs)).1
    · rw [List.all_eq_true]
      intro p hp
      exact (varPair_ok_inv (hvarsAll p hp)).1
    · exact synPart_ok_inv hsyn
    · rw [hn]
      simpa using c1
    · rw [hd2]
      simpa using c2
    · cases hB : (r.vars.getD []).any (fun p => p.2.enum_values == some []) with
      | false => rfl
      | true =>
        exfalso
        rcases List.any_eq_true.mp hB with ⟨p, hp, hpred⟩
        have hT : (varList f).any (fun v => v.enum_values == some []) = true := by
          apply List.any_eq_true.mpr
          refine ⟨decodeVarD p.2, ?_, hpred⟩
          unfold varList
          rw [hfv, List.map_map]
          exact List.mem_map_of_mem _ hp
        rw [hT] at c3
        exact absurd c3 (by simp)
    · have hfun : (Step.id ∘ decodeStepD) = (fun s : RawStep => s.id.getD "") := rfl
      rw [← hfun, ← List.map_map, ← hfs]
      exact c4
    · rw [List.all_eq_true]
      intro s hs
      cases hB : (s.id.getD "" != "") with
      | true => rfl
      | false =>
        exfalso
        have hEq : s.id.getD "" = "" := by simpa using hB
        have hT : f.steps.any (fun st => st.id == "") = true := by
          apply List.any_eq_true.mpr
          refine ⟨decodeStepD s, ?_, by simp [decodeStepD, hEq]⟩
          rw [hfs]
          exact List.mem_map_of_mem _ hs
        rw [hT] at c5
        exact absurd c5 (by simp)
    · have hfun : (Leg.id ∘ decodeLegD) = (fun l : RawLeg => l.id.getD "") := rfl
      rw [← hfun, ← List.map_map, ← hfl]
      exact c6
    · rw [List.all_eq_true]
      intro l hl
      cases hB : (l.id.getD "" != "") with
      | true => rfl
      | false =>
        exfalso
        have hEq : l.id.getD "" = "" := by simpa using hB
        have hT : f.legs.any (fun lg => lg.id == "") = true := by
          apply List.any_eq_true.mpr
          refine ⟨decodeLegD l, ?_, by simp [decodeLegD, hEq]⟩
          rw [hfl]
          exact List.mem_map_of_mem _ hl
        rw [hT] at c7
        exact absurd c7 (by simp)
    · cases hB : (r.steps.getD []).any
          (fun s => (s.needs.getD []).contains (s.id.getD "")) with
      | false => rfl
      | true =>
        exfalso
        rcases List.any_eq_true.mp hB with ⟨s, hs, hpred⟩
        have hT : f.steps.any (fun st => st.needs.contains st.id) = true := by
          apply List.any_eq_true.mpr
          refine ⟨decodeStepD s, ?_, hpred⟩
          rw [hfs]
          exact List.mem_map_of_mem _ hs
        rw [hT] at c8
        exact absurd c8 (by simp)
